import Mathlib

/-
Verification of the variable-width wall toolpath generator (beading
strategies, skeletal trapezoidation, wall post-processing) against its
natural-language specification.

Modelling conventions:
* `coord_t` (a 64-bit integer in the source) is modelled as `Int`; none of the
  verified properties depends on 64-bit wrap-around.
* C++ integer division and modulus on `coord_t` truncate toward zero; they are
  modelled by `Int.tdiv` / `Int.tmod`.
* `Ratio` and `double` values (thresholds, flow ratios, `sin` of the
  transitioning angle) are modelled as exact rationals `ℚ`; a conversion of
  such a value to `coord_t` truncates toward zero, modelled by `truncQ`.
* `vSize` (Euclidean length rounded down to `coord_t`) is modelled with
  `Nat.sqrt`, the floor square root.
-/

namespace CuraSpec

/-- Truncation of a rational toward zero, the behaviour of a C++ cast from
`double` to an integer type. -/
def truncQ (q : ℚ) : Int :=
  q.num.tdiv (q.den : Int)

/-- The `Beading` value type (`BeadingStrategy.h`): the decomposition of a
cross-section `total_thickness` into `bead_widths` with centerline radii
`toolpath_locations`, an unfilled remainder `left_over`, and this repository's
extension `flow_ratios` (per-bead flow multipliers).  The header itself is not
part of the sources under verification; the field list is taken from the
specification's data model and the fields' uses in the strategy sources.
A default-constructed `Beading` is modelled with `left_over = 0` and empty
lists. -/
structure Beading where
  total_thickness : Int
  bead_widths : List Int
  toolpath_locations : List Int
  left_over : Int
  flow_ratios : List ℚ
deriving DecidableEq, Repr

/-- Parameters of the abstract base class `BeadingStrategy`
(`BeadingStrategy.cpp`). -/
structure BeadingStrategy where
  optimal_width_ : Int
  wall_split_middle_threshold_ : ℚ
  wall_add_middle_threshold_ : ℚ
deriving DecidableEq, Repr

/-- `BeadingStrategy::getOptimalThickness`: `optimal_width_ * bead_count`. -/
def BeadingStrategy.getOptimalThickness (s : BeadingStrategy) (bead_count : Int) : Int :=
  s.optimal_width_ * bead_count

/-- `BeadingStrategy::getTransitionThickness` (`BeadingStrategy.cpp`): picks
`wall_split_middle_threshold_` when `lower_bead_count % 2 == 1` (C++ truncated
modulus) and `wall_add_middle_threshold_` otherwise, and returns
`lower + threshold * (higher - lower)` converted back to `coord_t`. -/
def BeadingStrategy.getTransitionThickness (s : BeadingStrategy) (lower_bead_count : Int) : Int :=
  let lower_ideal_width := s.getOptimalThickness lower_bead_count
  let higher_ideal_width := s.getOptimalThickness (lower_bead_count + 1)
  let threshold : ℚ :=
    if lower_bead_count.tmod 2 = 1 then s.wall_split_middle_threshold_
    else s.wall_add_middle_threshold_
  truncQ ((lower_ideal_width : ℚ) + threshold * ((higher_ideal_width : ℚ) - (lower_ideal_width : ℚ)))

/-- The transition thickness as worded by the specification:
`optimal_thickness(n) + threshold * (optimal_thickness(n+1) − optimal_thickness(n))`,
selecting the split-middle threshold when `n` is odd and the add-middle
threshold when `n` is even. -/
def transitionThicknessSpec (s : BeadingStrategy) (n : Int) : Int :=
  truncQ ((s.getOptimalThickness n : ℚ) +
    (if Odd n then s.wall_split_middle_threshold_ else s.wall_add_middle_threshold_) *
      ((s.getOptimalThickness (n + 1) : ℚ) - (s.getOptimalThickness n : ℚ)))

/-- Claim C9: for every bead count `n ≥ 0`, the base strategy's
`transition_thickness(n)` equals
`optimal_thickness(n) + threshold * (optimal_thickness(n+1) − optimal_thickness(n))`,
where `threshold` is the split-middle threshold when `n` is odd and the
add-middle threshold when `n` is even. -/
theorem getTransitionThickness_threshold_selection
    (s : BeadingStrategy) (n : Int) (hn : 0 ≤ n) :
    s.getTransitionThickness n = transitionThicknessSpec s n := by
  unfold BeadingStrategy.getTransitionThickness transitionThicknessSpec
  have htmod : n.tmod 2 = n % 2 := Int.tmod_eq_emod hn (by norm_num)
  have hodd : (n.tmod 2 = 1) ↔ Odd n := by
    rw [htmod, Int.odd_iff]
  rcases Classical.em (Odd n) with h | h
  · rw [if_pos (hodd.mpr h), if_pos h]
  · rw [if_neg (fun hc => h (hodd.mp hc)), if_neg h]

/-- Witness for C9 at a concrete strategy and bead count. -/
theorem getTransitionThickness_threshold_selection_witness :
    (0 : Int) ≤ 3 ∧
      BeadingStrategy.getTransitionThickness ⟨400, 1/4, 3/4⟩ 3 =
        transitionThicknessSpec ⟨400, 1/4, 3/4⟩ 3 :=
  ⟨by decide, getTransitionThickness_threshold_selection ⟨400, 1/4, 3/4⟩ 3 (by decide)⟩

/-- `FixedOuterWallBeadingStrategy` (`FixedOuterWallBeadingStrategy.cpp`).
The parent strategy, held through a `BeadingStrategyPtr` in the source, is
modelled by its two relevant operations. -/
structure FixedOuterWallBeadingStrategy where
  parent_compute : Int → Int → Beading
  parent_getOptimalBeadCount : Int → Int
  fixed_outer_width_ : Int
  minimum_variable_line_ratio_ : ℚ

/-- `FixedOuterWallBeadingStrategy::getOptimalBeadCount`. -/
def FixedOuterWallBeadingStrategy.getOptimalBeadCount
    (s : FixedOuterWallBeadingStrategy) (thickness : Int) : Int :=
  if (thickness : ℚ) < s.minimum_variable_line_ratio_ * (s.fixed_outer_width_ : ℚ) then 0
  else if thickness ≤ s.fixed_outer_width_ then 1
  else if thickness ≤ 2 * s.fixed_outer_width_ then 2
  else 2 + s.parent_getOptimalBeadCount (thickness - 2 * s.fixed_outer_width_)

/-- `FixedOuterWallBeadingStrategy::compute`.  The `left_over` of a
default-constructed `Beading` (never assigned when the parent branch is
skipped) is modelled as 0. -/
def FixedOuterWallBeadingStrategy.compute
    (s : FixedOuterWallBeadingStrategy) (thickness bead_count : Int) : Beading :=
  if bead_count = 0 ∨ (thickness : ℚ) < s.minimum_variable_line_ratio_ * (s.fixed_outer_width_ : ℚ) then
    ⟨thickness, [], [], thickness, []⟩
  else if bead_count = 1 then
    ⟨thickness, [s.fixed_outer_width_], [thickness.tdiv 2], thickness - s.fixed_outer_width_, []⟩
  else if bead_count = 2 then
    ⟨thickness, [s.fixed_outer_width_, s.fixed_outer_width_],
      [s.fixed_outer_width_.tdiv 2, thickness - s.fixed_outer_width_.tdiv 2],
      thickness - 2 * s.fixed_outer_width_, []⟩
  else
    let inner_bead_count := bead_count - 2
    let inner_thickness := thickness - 2 * s.fixed_outer_width_
    let inner : List Int × List Int × Int :=
      if 0 < inner_thickness ∧ 0 < inner_bead_count then
        let ib := s.parent_compute inner_thickness inner_bead_count
        (ib.bead_widths, ib.toolpath_locations.map (· + s.fixed_outer_width_), ib.left_over)
      else ([], [], 0)
    ⟨thickness,
      s.fixed_outer_width_ :: inner.1 ++ [s.fixed_outer_width_],
      s.fixed_outer_width_.tdiv 2 :: inner.2.1 ++ [thickness - s.fixed_outer_width_.tdiv 2],
      inner.2.2, []⟩

/-- The `n ≥ 3` behaviour of `FixedOuterWallBeadingStrategy::compute` as worded
by claim C7: unconditionally the parent's `compute(t − 2*w, n − 2)` result with
its toolpath locations shifted by `w`, a `w`-wide bead prepended at `w/2` and
one appended at `t − w/2`. -/
def fixedOuterComputeClaimGe3
    (s : FixedOuterWallBeadingStrategy) (thickness bead_count : Int) : Beading :=
  let ib := s.parent_compute (thickness - 2 * s.fixed_outer_width_) (bead_count - 2)
  ⟨thickness,
    s.fixed_outer_width_ :: ib.bead_widths ++ [s.fixed_outer_width_],
    s.fixed_outer_width_.tdiv 2 :: ib.toolpath_locations.map (· + s.fixed_outer_width_)
      ++ [thickness - s.fixed_outer_width_.tdiv 2],
    ib.left_over, []⟩

/-- A concrete fixed-outer-wall strategy used to refute C7 as stated:
`w_fixed = 400`, `minimum_variable_line_ratio = 1/2`, over a parent that
returns one bead of width 7 at location 3 for any input. -/
def fixedOuterCex : FixedOuterWallBeadingStrategy :=
  ⟨fun t _ => ⟨t, [7], [3], t - 7, []⟩, fun _ => 0, 400, 1/2⟩

/-- Branch analysis of `FixedOuterWallBeadingStrategy::compute` for `n ≥ 3`
when the thickness left for the parent is non-positive: the parent is skipped
and only the two fixed outer beads are emitted. -/
lemma fixedOuter_compute_small (s : FixedOuterWallBeadingStrategy) (t n : Int)
    (h3 : 3 ≤ n)
    (ht : ¬ ((t : ℚ) < s.minimum_variable_line_ratio_ * (s.fixed_outer_width_ : ℚ)))
    (hsmall : t ≤ 2 * s.fixed_outer_width_) :
    s.compute t n =
      ⟨t, [s.fixed_outer_width_, s.fixed_outer_width_],
        [s.fixed_outer_width_.tdiv 2, t - s.fixed_outer_width_.tdiv 2], 0, []⟩ := by
  have hc1 : ¬ (n = 0 ∨ (t : ℚ) < s.minimum_variable_line_ratio_ * (s.fixed_outer_width_ : ℚ)) := by
    rintro (h | h)
    · omega
    · exact ht h
  have hc4 : ¬ (0 < t - 2 * s.fixed_outer_width_ ∧ 0 < n - 2) := by
    rintro ⟨h, -⟩
    omega
  simp only [FixedOuterWallBeadingStrategy.compute, if_neg hc1,
    if_neg (show ¬ n = 1 by omega), if_neg (show ¬ n = 2 by omega), if_neg hc4]
  simp

/-- Branch analysis of `FixedOuterWallBeadingStrategy::compute` for `n ≥ 3`
when the parent is actually consulted (`t > 2*w_fixed`). -/
lemma fixedOuter_compute_big (s : FixedOuterWallBeadingStrategy) (t n : Int)
    (h3 : 3 ≤ n)
    (ht : ¬ ((t : ℚ) < s.minimum_variable_line_ratio_ * (s.fixed_outer_width_ : ℚ)))
    (hbig : 2 * s.fixed_outer_width_ < t) :
    s.compute t n = fixedOuterComputeClaimGe3 s t n := by
  have hc1 : ¬ (n = 0 ∨ (t : ℚ) < s.minimum_variable_line_ratio_ * (s.fixed_outer_width_ : ℚ)) := by
    rintro (h | h)
    · omega
    · exact ht h
  have hc4 : 0 < t - 2 * s.fixed_outer_width_ ∧ 0 < n - 2 := by omega
  simp only [FixedOuterWallBeadingStrategy.compute, if_neg hc1,
    if_neg (show ¬ n = 1 by omega), if_neg (show ¬ n = 2 by omega), if_pos hc4,
    fixedOuterComputeClaimGe3]

/-- Threshold inequality for the concrete counterexample strategy, at the three
thicknesses used below. -/
lemma fixedOuterCex_threshold (t : Int) (h : 200 ≤ t) :
    ¬ ((t : ℚ) < fixedOuterCex.minimum_variable_line_ratio_ * (fixedOuterCex.fixed_outer_width_ : ℚ)) := by
  have : fixedOuterCex.minimum_variable_line_ratio_ * (fixedOuterCex.fixed_outer_width_ : ℚ) = 200 := by
    norm_num [fixedOuterCex]
  rw [this]
  exact_mod_cast not_lt.mpr (by exact_mod_cast h : (200 : ℚ) ≤ (t : ℚ))

/-- Counterexample to claim C7 as stated: at `t = 600 ≥ (1/2)*400` and
`n = 3`, the code does not return the parent-delegation shape (the delegated
thickness `600 − 800` is non-positive, so the parent is never called and only
the two fixed outer beads are produced). -/
theorem fixedOuterWall_compute_delegation_cex :
    ¬ ((600 : ℚ) < fixedOuterCex.minimum_variable_line_ratio_ * (fixedOuterCex.fixed_outer_width_ : ℚ)) ∧
      fixedOuterCex.compute 600 3 ≠ fixedOuterComputeClaimGe3 fixedOuterCex 600 3 := by
  have hth := fixedOuterCex_threshold 600 (by norm_num)
  refine ⟨hth, ?_⟩
  rw [fixedOuter_compute_small fixedOuterCex 600 3 (by norm_num) hth (by norm_num [fixedOuterCex])]
  intro h
  have hlen := congrArg (fun b => b.bead_widths.length) h
  simp [fixedOuterComputeClaimGe3, fixedOuterCex] at hlen

/-- Claim C7 (amended): for `t` at least `minimum_variable_line_ratio * w_fixed`,
`compute(t, n)` returns: for `n = 0` no beads with `left_over = t`; for `n = 1`
one bead of width `w_fixed` centered at `t/2`; for `n = 2` two `w_fixed`-wide
beads at radii `w_fixed/2` and `t − w_fixed/2`; and, for `n ≥ 3` **provided
additionally `t > 2*w_fixed`**, the parent's `compute(t − 2*w_fixed, n − 2)`
result with its toolpath locations shifted by `w_fixed` and the two fixed outer
beads prepended and appended. -/
theorem fixedOuterWall_compute_branches
    (s : FixedOuterWallBeadingStrategy) (t n : Int)
    (ht : ¬ ((t : ℚ) < s.minimum_variable_line_ratio_ * (s.fixed_outer_width_ : ℚ))) :
    (n = 0 → s.compute t n = ⟨t, [], [], t, []⟩) ∧
    (n = 1 → s.compute t n =
      ⟨t, [s.fixed_outer_width_], [t.tdiv 2], t - s.fixed_outer_width_, []⟩) ∧
    (n = 2 → s.compute t n =
      ⟨t, [s.fixed_outer_width_, s.fixed_outer_width_],
        [s.fixed_outer_width_.tdiv 2, t - s.fixed_outer_width_.tdiv 2],
        t - 2 * s.fixed_outer_width_, []⟩) ∧
    (3 ≤ n → 2 * s.fixed_outer_width_ < t →
      s.compute t n = fixedOuterComputeClaimGe3 s t n) := by
  refine ⟨?_, ?_, ?_, ?_⟩
  · intro h0
    simp [FixedOuterWallBeadingStrategy.compute, h0]
  · intro h1
    subst h1
    simp [FixedOuterWallBeadingStrategy.compute, ht]
  · intro h2
    subst h2
    simp [FixedOuterWallBeadingStrategy.compute, ht]
  · intro h3 hbig
    exact fixedOuter_compute_big s t n h3 ht hbig

/-- Witness for the amended C7 at a concrete strategy, thickness and count. -/
theorem fixedOuterWall_compute_branches_witness :
    (¬ ((2000 : ℚ) < fixedOuterCex.minimum_variable_line_ratio_ * (fixedOuterCex.fixed_outer_width_ : ℚ))) ∧
      (3 ≤ (4 : Int) → 2 * fixedOuterCex.fixed_outer_width_ < 2000 →
        fixedOuterCex.compute 2000 4 = fixedOuterComputeClaimGe3 fixedOuterCex 2000 4) :=
  ⟨fixedOuterCex_threshold 2000 (by norm_num),
    (fixedOuterWall_compute_branches fixedOuterCex 2000 4
      (fixedOuterCex_threshold 2000 (by norm_num))).2.2.2⟩

/-- Claim C10: for every requested bead count `n ≥ 3` and every thickness with
`minimum_variable_line_ratio * w_fixed ≤ t ≤ 2 * w_fixed` (so the delegated
thickness would be non-positive), `compute(t, n)` returns exactly two beads,
both of width `w_fixed`, at toolpath locations `w_fixed/2` and `t − w_fixed/2`,
with no contribution from the parent strategy (the result does not depend on
`parent_compute` at all). -/
theorem fixedOuterWall_compute_two_bead_fallback
    (s : FixedOuterWallBeadingStrategy) (t n : Int)
    (h3 : 3 ≤ n)
    (ht : ¬ ((t : ℚ) < s.minimum_variable_line_ratio_ * (s.fixed_outer_width_ : ℚ)))
    (hsmall : t ≤ 2 * s.fixed_outer_width_) :
    (s.compute t n).bead_widths = [s.fixed_outer_width_, s.fixed_outer_width_] ∧
    (s.compute t n).toolpath_locations =
      [s.fixed_outer_width_.tdiv 2, t - s.fixed_outer_width_.tdiv 2] := by
  rw [fixedOuter_compute_small s t n h3 ht hsmall]
  exact ⟨rfl, rfl⟩

/-- Witness for C10 at `w_fixed = 400`, `ratio = 1/2`, `t = 600`, `n = 3`. -/
theorem fixedOuterWall_compute_two_bead_fallback_witness :
    ((3 : Int) ≤ 3) ∧
      (¬ ((600 : ℚ) < fixedOuterCex.minimum_variable_line_ratio_ * (fixedOuterCex.fixed_outer_width_ : ℚ))) ∧
      ((600 : Int) ≤ 2 * fixedOuterCex.fixed_outer_width_) ∧
      (fixedOuterCex.compute 600 3).bead_widths =
        [fixedOuterCex.fixed_outer_width_, fixedOuterCex.fixed_outer_width_] ∧
      (fixedOuterCex.compute 600 3).toolpath_locations =
        [fixedOuterCex.fixed_outer_width_.tdiv 2, 600 - fixedOuterCex.fixed_outer_width_.tdiv 2] := by
  have hth := fixedOuterCex_threshold 600 (by norm_num)
  refine ⟨by norm_num, hth, by norm_num [fixedOuterCex], ?_⟩
  exact fixedOuterWall_compute_two_bead_fallback fixedOuterCex 600 3 (by norm_num) hth
    (by norm_num [fixedOuterCex])

/-- `WideningBeadingStrategy` (`WideningBeadingStrategy.cpp`), with its parent
modelled by its two relevant operations. -/
structure WideningBeadingStrategy where
  parent_compute : Int → Int → Beading
  parent_getOptimalBeadCount : Int → Int
  optimal_width_ : Int
  min_input_width_ : Int
  min_output_width_ : Int

/-- `WideningBeadingStrategy::compute`: below the optimal width, features at
least `min_input_width_` wide get one bead of width
`min(max(thickness, min_output_width_), optimal_width_)` centered, with
`left_over` clamped to 0 from below; thinner features are all left-over;
otherwise delegate to the parent. -/
def WideningBeadingStrategy.compute
    (s : WideningBeadingStrategy) (thickness bead_count : Int) : Beading :=
  if thickness < s.optimal_width_ then
    if s.min_input_width_ ≤ thickness then
      let safe_output_width := min (max thickness s.min_output_width_) s.optimal_width_
      ⟨thickness, [safe_output_width], [thickness.tdiv 2],
        if thickness - safe_output_width < 0 then 0 else thickness - safe_output_width, []⟩
    else
      ⟨thickness, [], [], thickness, []⟩
  else
    s.parent_compute thickness bead_count

/-- `WideningBeadingStrategy::getOptimalBeadCount`. -/
def WideningBeadingStrategy.getOptimalBeadCount
    (s : WideningBeadingStrategy) (thickness : Int) : Int :=
  if thickness < s.min_input_width_ then 0
  else
    let ret := s.parent_getOptimalBeadCount thickness
    if s.min_input_width_ ≤ thickness ∧ ret < 1 then 1 else ret

/-- `FlowCompensatedBeadingStrategy` (`FlowCompensatedBeadingStrategy.cpp`),
with its parent modelled by its two relevant operations. -/
structure FlowCompensatedBeadingStrategy where
  parent_compute : Int → Int → Beading
  parent_getOptimalBeadCount : Int → Int
  min_target_width_ : Int
  min_stable_width_ : Int
  max_flow_compensation_ratio_ : ℚ

/-- `FlowCompensatedBeadingStrategy::needsFlowCompensation`. -/
def FlowCompensatedBeadingStrategy.needsFlowCompensation
    (s : FlowCompensatedBeadingStrategy) (thickness : Int) : Prop :=
  thickness < s.min_stable_width_ ∧ s.min_target_width_ ≤ thickness

instance (s : FlowCompensatedBeadingStrategy) (thickness : Int) :
    Decidable (s.needsFlowCompensation thickness) :=
  inferInstanceAs (Decidable (_ ∧ _))

/-- `FlowCompensatedBeadingStrategy::calculateFlowRatio`: the clamp of
`target/stable` into `[max_flow_compensation_ratio_, 1]`, or `1` on a
non-positive stable width. -/
def FlowCompensatedBeadingStrategy.calculateFlowRatio
    (s : FlowCompensatedBeadingStrategy) (target_width stable_width : Int) : ℚ :=
  if stable_width ≤ 0 then 1
  else max s.max_flow_compensation_ratio_ (min 1 ((target_width : ℚ) / (stable_width : ℚ)))

/-- `FlowCompensatedBeadingStrategy::applyFlowCompensation`: scales every bead
width by the flow ratio (truncated toward zero, floored at 1 µm), records the
ratio per bead, and clamps the recomputed `left_over` at 0. -/
def FlowCompensatedBeadingStrategy.applyFlowCompensation
    (s : FlowCompensatedBeadingStrategy) (beading : Beading) (target_thickness : Int) : Beading :=
  if beading.bead_widths = [] then
    ⟨target_thickness, beading.bead_widths, beading.toolpath_locations,
      target_thickness, beading.flow_ratios⟩
  else
    let total_stable_width := beading.bead_widths.sum
    if total_stable_width ≤ 0 then
      ⟨target_thickness, beading.bead_widths, beading.toolpath_locations,
        target_thickness, beading.flow_ratios⟩
    else
      let fr := s.calculateFlowRatio target_thickness total_stable_width
      let adjusted := beading.bead_widths.map (fun (w : Int) => max 1 (truncQ ((w : ℚ) * fr)))
      ⟨target_thickness, adjusted, beading.toolpath_locations,
        if target_thickness - adjusted.sum < 0 then 0 else target_thickness - adjusted.sum,
        List.replicate beading.bead_widths.length fr⟩

/-- `FlowCompensatedBeadingStrategy::compute`. -/
def FlowCompensatedBeadingStrategy.compute
    (s : FlowCompensatedBeadingStrategy) (thickness bead_count : Int) : Beading :=
  if thickness < s.min_target_width_ then
    ⟨thickness, [], [], thickness, []⟩
  else if ¬ s.needsFlowCompensation thickness then
    s.parent_compute thickness bead_count
  else
    s.applyFlowCompensation (s.parent_compute s.min_stable_width_ bead_count) thickness

/-- `FlowCompensatedBeadingStrategy::getOptimalBeadCount`. -/
def FlowCompensatedBeadingStrategy.getOptimalBeadCount
    (s : FlowCompensatedBeadingStrategy) (thickness : Int) : Int :=
  if s.min_target_width_ ≤ thickness ∧ thickness < s.min_stable_width_ then 1
  else s.parent_getOptimalBeadCount thickness

/-- The `Beading` invariants exactly as the specification states them. -/
def BeadingInvariants (b : Beading) : Prop :=
  b.bead_widths.length = b.toolpath_locations.length ∧
  b.toolpath_locations.Chain' (· < ·) ∧
  b.bead_widths.sum + b.left_over = b.total_thickness

instance (b : Beading) : Decidable (BeadingInvariants b) :=
  inferInstanceAs (Decidable (_ ∧ _ ∧ _))

/-- The amended `Beading` invariants: the bead widths plus left-over may
exceed the total thickness (they do when a minimum-width clamp widens a bead),
but never fall short of it. -/
def BeadingInvariantsGe (b : Beading) (t : Int) : Prop :=
  b.total_thickness = t ∧
  b.bead_widths.length = b.toolpath_locations.length ∧
  b.toolpath_locations.Chain' (· < ·) ∧
  b.total_thickness ≤ b.bead_widths.sum + b.left_over

/-- What the decorators rely on from a well-behaved parent strategy: the
amended invariants together with non-negative bead widths and toolpath
locations inside `[0, total_thickness]`. -/
def GoodBeading (b : Beading) (t : Int) : Prop :=
  b.total_thickness = t ∧
  b.bead_widths.length = b.toolpath_locations.length ∧
  b.toolpath_locations.Chain' (· < ·) ∧
  (∀ x ∈ b.toolpath_locations, 0 ≤ x ∧ x ≤ t) ∧
  (∀ x ∈ b.bead_widths, 0 ≤ x) ∧
  t ≤ b.bead_widths.sum + b.left_over

/-- The widening decorator's `compute` satisfies the amended invariants, for
every thickness and bead count, whenever its parent does. -/
lemma widening_compute_invariants (s : WideningBeadingStrategy) (t n : Int)
    (hP : ∀ t' n', GoodBeading (s.parent_compute t' n') t') :
    BeadingInvariantsGe (s.compute t n) t := by
  unfold WideningBeadingStrategy.compute
  split_ifs with h1 h2
  · refine ⟨rfl, rfl, List.chain'_singleton _, ?_⟩
    simp only [List.sum_cons, List.sum_nil]
    set c := min (max t s.min_output_width_) s.optimal_width_ with hc
    split_ifs with h3 <;> omega
  · exact ⟨rfl, rfl, List.chain'_nil, by simp⟩
  · obtain ⟨ha, hb, hcn, -, -, hs⟩ := hP t n
    refine ⟨ha, hb, hcn, ?_⟩
    rw [ha]
    exact hs

/-- The sandwich `w :: parent ++ [w]` built by the `n ≥ 3` branch of
`FixedOuterWallBeadingStrategy::compute` satisfies the amended invariants when
the parent beading does. -/
lemma fixedOuter_sandwich_invariants (s : FixedOuterWallBeadingStrategy) (t k : Int)
    (hP : ∀ t' n', GoodBeading (s.parent_compute t' n') t')
    (hw : 0 < s.fixed_outer_width_)
    (hbig : 2 * s.fixed_outer_width_ < t) :
    BeadingInvariantsGe
      ⟨t,
        s.fixed_outer_width_ ::
          (s.parent_compute (t - 2 * s.fixed_outer_width_) k).bead_widths ++ [s.fixed_outer_width_],
        s.fixed_outer_width_.tdiv 2 ::
          (s.parent_compute (t - 2 * s.fixed_outer_width_) k).toolpath_locations.map
            (· + s.fixed_outer_width_) ++ [t - s.fixed_outer_width_.tdiv 2],
        (s.parent_compute (t - 2 * s.fixed_outer_width_) k).left_over, []⟩ t := by
  obtain ⟨hptot, hplen, hpchain, hprange, -, hpsum⟩ :=
    hP (t - 2 * s.fixed_outer_width_) k
  have hw2 : s.fixed_outer_width_.tdiv 2 = s.fixed_outer_width_ / 2 :=
    Int.tdiv_eq_ediv (by omega) (by omega)
  set pb := s.parent_compute (t - 2 * s.fixed_outer_width_) k with hpb
  refine ⟨rfl, ?_, ?_, ?_⟩
  · simp [hplen]
  · dsimp only
    rw [List.chain'_append]
    refine ⟨?_, List.chain'_singleton _, ?_⟩
    · rw [List.chain'_cons']
      constructor
      · intro y hy
        obtain ⟨x0, hx0mem, hx0⟩ := List.mem_map.mp (List.mem_of_mem_head? hy)
        obtain ⟨hx00, -⟩ := hprange x0 hx0mem
        rw [← hx0, hw2]
        omega
      · rw [List.chain'_map]
        exact hpchain.imp (fun a b hab => by omega)
    · intro x hx y hy
      simp only [List.head?_cons, Option.mem_def, Option.some.injEq] at hy
      rcases List.mem_cons.mp (List.mem_of_mem_getLast? hx) with hxa | hxm
      · rw [hxa, ← hy, hw2]
        omega
      · obtain ⟨x0, hx0mem, hx0⟩ := List.mem_map.mp hxm
        obtain ⟨-, hx0le⟩ := hprange x0 hx0mem
        rw [← hy, ← hx0, hw2]
        omega
  · dsimp only
    simp only [List.sum_append, List.sum_cons, List.sum_nil]
    omega

/-- The fixed-outer-wall decorator's `compute` satisfies the amended
invariants at the bead count the strategy itself chooses, whenever its parent
does and the fixed width is positive. -/
lemma fixedOuter_compute_invariants (s : FixedOuterWallBeadingStrategy) (t : Int)
    (hP : ∀ t' n', GoodBeading (s.parent_compute t' n') t')
    (hPc : ∀ t', 0 ≤ s.parent_getOptimalBeadCount t')
    (hw : 0 < s.fixed_outer_width_) :
    BeadingInvariantsGe (s.compute t (s.getOptimalBeadCount t)) t := by
  have hw2 : s.fixed_outer_width_.tdiv 2 = s.fixed_outer_width_ / 2 :=
    Int.tdiv_eq_ediv (by omega) (by omega)
  unfold FixedOuterWallBeadingStrategy.getOptimalBeadCount
  split_ifs with hq h1 h2
  · -- chosen count 0: everything is left-over
    simp only [FixedOuterWallBeadingStrategy.compute, if_pos (Or.inl rfl)]
    exact ⟨rfl, rfl, List.chain'_nil, by simp⟩
  · -- chosen count 1
    have hc1 : ¬ ((1 : Int) = 0 ∨ (t : ℚ) < s.minimum_variable_line_ratio_ * (s.fixed_outer_width_ : ℚ)) := by
      rintro (h | h)
      · omega
      · exact hq h
    simp only [FixedOuterWallBeadingStrategy.compute, if_neg hc1, if_pos rfl, if_true]
    refine ⟨rfl, rfl, List.chain'_singleton _, ?_⟩
    dsimp only
    simp only [List.sum_cons, List.sum_nil]
    omega
  · -- chosen count 2
    have hc1 : ¬ ((2 : Int) = 0 ∨ (t : ℚ) < s.minimum_variable_line_ratio_ * (s.fixed_outer_width_ : ℚ)) := by
      rintro (h | h)
      · omega
      · exact hq h
    simp only [FixedOuterWallBeadingStrategy.compute, if_neg hc1,
      if_neg (show ¬ (2 : Int) = 1 by omega), if_pos rfl, if_true, if_false]
    refine ⟨rfl, rfl, ?_, ?_⟩
    · refine List.chain'_cons.mpr ⟨?_, List.chain'_singleton _⟩
      rw [hw2]
      omega
    · dsimp only
      simp only [List.sum_cons, List.sum_nil]
      omega
  · -- chosen count 2 + parent's count on the inner thickness
    set m := s.parent_getOptimalBeadCount (t - 2 * s.fixed_outer_width_) with hm
    have hm0 : 0 ≤ m := hPc _
    have hc1 : ¬ (2 + m = 0 ∨ (t : ℚ) < s.minimum_variable_line_ratio_ * (s.fixed_outer_width_ : ℚ)) := by
      rintro (h | h)
      · omega
      · exact hq h
    rcases Classical.em (m = 0) with hmz | hmz
    · -- parent chooses 0 inner beads: the two-bead branch of compute
      simp only [FixedOuterWallBeadingStrategy.compute, if_neg hc1,
        if_neg (show ¬ 2 + m = 1 by omega), if_pos (show 2 + m = 2 by omega)]
      refine ⟨rfl, rfl, ?_, ?_⟩
      · refine List.chain'_cons.mpr ⟨?_, List.chain'_singleton _⟩
        rw [hw2]
        omega
      · dsimp only
        simp only [List.sum_cons, List.sum_nil]
        omega
    · -- at least one inner bead: the parent is consulted
      have hguard : 0 < t - 2 * s.fixed_outer_width_ ∧ 0 < 2 + m - 2 := by omega
      simp only [FixedOuterWallBeadingStrategy.compute, if_neg hc1,
        if_neg (show ¬ 2 + m = 1 by omega), if_neg (show ¬ 2 + m = 2 by omega), if_pos hguard]
      exact fixedOuter_sandwich_invariants s t (2 + m - 2) hP hw (by omega)

/-- The flow-compensated decorator's `compute` satisfies the amended
invariants, for every thickness and bead count, whenever its parent does. -/
lemma flow_compute_invariants (s : FlowCompensatedBeadingStrategy) (t n : Int)
    (hP : ∀ t' n', GoodBeading (s.parent_compute t' n') t') :
    BeadingInvariantsGe (s.compute t n) t := by
  unfold FlowCompensatedBeadingStrategy.compute
  split_ifs with h1 h2
  · exact ⟨rfl, rfl, List.chain'_nil, by simp⟩
  · obtain ⟨-, hplen, hpchain, -, hpw, -⟩ := hP s.min_stable_width_ n
    set pb := s.parent_compute s.min_stable_width_ n with hpb
    unfold FlowCompensatedBeadingStrategy.applyFlowCompensation
    dsimp only
    split_ifs with he hs0 hneg
    · refine ⟨rfl, hplen, hpchain, ?_⟩
      dsimp only
      rw [he]
      simp
    · refine ⟨rfl, hplen, hpchain, ?_⟩
      dsimp only
      have hsum : 0 ≤ pb.bead_widths.sum := List.sum_nonneg hpw
      omega
    · refine ⟨rfl, ?_, hpchain, ?_⟩
      · dsimp only
        rw [List.length_map]
        exact hplen
      · dsimp only
        omega
    · refine ⟨rfl, ?_, hpchain, ?_⟩
      · dsimp only
        rw [List.length_map]
        exact hplen
      · dsimp only
        omega
  · obtain ⟨ha, hb, hc, -, -, hs⟩ := hP t n
    refine ⟨ha, hb, hc, ?_⟩
    rw [ha]
    exact hs

/-- Claim C1 (amended): for every `Beading` produced by the Widening,
FixedOuterWall or FlowCompensated decorator's `compute` at the bead count the
strategy itself chooses (assuming the parent strategies produce well-formed
beadings, a non-negative parent bead count and a positive fixed outer width),
`bead_widths` and `toolpath_locations` have equal sizes, `toolpath_locations`
is strictly increasing, and `sum(bead_widths) + left_over ≥ total_thickness`
(equality can fail: minimum-width clamping may widen beads past the available
thickness, with the excess clamped out of `left_over`). -/
theorem beading_invariants_hold_ge
    (wS : WideningBeadingStrategy) (fS : FixedOuterWallBeadingStrategy)
    (flS : FlowCompensatedBeadingStrategy) (t : Int)
    (hwP : ∀ t' n', GoodBeading (wS.parent_compute t' n') t')
    (hfP : ∀ t' n', GoodBeading (fS.parent_compute t' n') t')
    (hfPc : ∀ t', 0 ≤ fS.parent_getOptimalBeadCount t')
    (hflP : ∀ t' n', GoodBeading (flS.parent_compute t' n') t')
    (hw : 0 < fS.fixed_outer_width_) :
    BeadingInvariantsGe (wS.compute t (wS.getOptimalBeadCount t)) t ∧
    BeadingInvariantsGe (fS.compute t (fS.getOptimalBeadCount t)) t ∧
    BeadingInvariantsGe (flS.compute t (flS.getOptimalBeadCount t)) t :=
  ⟨widening_compute_invariants wS t _ hwP,
    fixedOuter_compute_invariants fS t hfP hfPc hw,
    flow_compute_invariants flS t _ hflP⟩

/-- A parent strategy model that puts everything into `left_over`; its
beadings are trivially well-formed. -/
def trivialParentCompute : Int → Int → Beading :=
  fun t _ => ⟨t, [], [], t, []⟩

lemma trivialParentCompute_good (t n : Int) : GoodBeading (trivialParentCompute t n) t :=
  ⟨rfl, rfl, List.chain'_nil, by simp [trivialParentCompute], by simp [trivialParentCompute],
    by simp [trivialParentCompute]⟩

/-- The widening strategy instance refuting the exact-sum invariant:
`optimal_width = 20`, `min_input_width = 4`, `min_output_width = 10`. -/
def wideningCexS : WideningBeadingStrategy :=
  ⟨trivialParentCompute, fun _ => 0, 20, 4, 10⟩

/-- A fixed-outer-wall strategy over the trivial parent, used as a witness. -/
def fixedOuterWitS : FixedOuterWallBeadingStrategy :=
  ⟨trivialParentCompute, fun _ => 0, 400, 1/2⟩

/-- Witness for the amended C1 at concrete strategies and `t = 1000`. -/
theorem beading_invariants_hold_ge_witness :
    BeadingInvariantsGe (wideningCexS.compute 1000 (wideningCexS.getOptimalBeadCount 1000)) 1000 ∧
    BeadingInvariantsGe (fixedOuterWitS.compute 1000 (fixedOuterWitS.getOptimalBeadCount 1000)) 1000 ∧
    BeadingInvariantsGe
      ((⟨trivialParentCompute, fun _ => 0, 100, 300, 9/10⟩ : FlowCompensatedBeadingStrategy).compute
        1000
        ((⟨trivialParentCompute, fun _ => 0, 100, 300, 9/10⟩ : FlowCompensatedBeadingStrategy).getOptimalBeadCount
          1000)) 1000 :=
  beading_invariants_hold_ge wideningCexS fixedOuterWitS
    ⟨trivialParentCompute, fun _ => 0, 100, 300, 9/10⟩ 1000
    trivialParentCompute_good
    trivialParentCompute_good
    (fun _ => le_refl 0)
    trivialParentCompute_good
    (by norm_num [fixedOuterWitS])

/-- Counterexample to claim C1 as stated: the widening strategy with
`min_input_width = 4 < min_output_width = 10`, at thickness 5 and its own
chosen bead count 1, emits one bead of width 10 with `left_over` clamped to 0,
so `sum(bead_widths) + left_over = 10 ≠ 5 = total_thickness`. -/
theorem beading_sum_invariant_cex :
    ¬ BeadingInvariants (wideningCexS.compute 5 (wideningCexS.getOptimalBeadCount 5)) := by
  intro h
  obtain ⟨-, -, hsum⟩ := h
  have heq : wideningCexS.compute 5 (wideningCexS.getOptimalBeadCount 5) =
      ⟨5, [10], [2], 0, []⟩ := by decide
  rw [heq] at hsum
  simp at hsum

/-- A 3D point with integer coordinates (`Point3LL`). -/
structure Point3LL where
  x_ : Int
  y_ : Int
  z_ : Int
deriving DecidableEq, Repr

/-- The fields of `ZSeamConfig` (`ZSeamConfig.h`) that
`getInterpolatedSeamPosition` reads. -/
structure ZSeamConfig where
  draw_z_seam_enable_ : Bool
  draw_z_seam_points_ : List Point3LL
  draw_z_seam_grow_ : Bool
  current_layer_z_ : Int
deriving DecidableEq, Repr

/-- The body of the bracketing-interval case of
`ZSeamConfig::getInterpolatedSeamPosition`: exact endpoints, otherwise linear
interpolation by `z` with the C++ `double` ratio modelled as an exact
rational and the cast back to `coord_t` truncating toward zero. -/
def seamInterpolate (p1 p2 : Point3LL) (layer_z : Int) : Int × Int :=
  if layer_z = p1.z_ then (p1.x_, p1.y_)
  else if layer_z = p2.z_ then (p2.x_, p2.y_)
  else
    let t : ℚ := ((layer_z - p1.z_ : Int) : ℚ) / ((p2.z_ - p1.z_ : Int) : ℚ)
    (p1.x_ + truncQ (t * ((p2.x_ - p1.x_ : Int) : ℚ)),
      p1.y_ + truncQ (t * ((p2.y_ - p1.y_ : Int) : ℚ)))

/-- The search loop of `getInterpolatedSeamPosition` over consecutive pairs of
the z-sorted seam points: the first pair bracketing `layer_z` wins. -/
def interpSearch (layer_z : Int) : List Point3LL → Option (Int × Int)
  | p1 :: p2 :: rest =>
    if p1.z_ ≤ layer_z ∧ layer_z ≤ p2.z_ then some (seamInterpolate p1 p2 layer_z)
    else interpSearch layer_z (p2 :: rest)
  | _ => none

/-- The `std::sort` by `z` of the seam-point list, modelled by a stable merge
sort with the non-strict comparison (`std::sort` leaves the order of equal-z
points unspecified; the model fixes the stable order). -/
def zSortedPoints (points : List Point3LL) : List Point3LL :=
  points.mergeSort (fun a b => decide (a.z_ ≤ b.z_))

/-- `ZSeamConfig::getInterpolatedSeamPosition` (`ZSeamConfig.cpp`). -/
def ZSeamConfig.getInterpolatedSeamPosition (cfg : ZSeamConfig) : Option (Int × Int) :=
  if ¬ cfg.draw_z_seam_enable_ ∨ cfg.draw_z_seam_points_ = [] then none
  else if cfg.draw_z_seam_points_.length = 1 then
    match cfg.draw_z_seam_points_ with
    | p :: _ => some (p.x_, p.y_)
    | [] => none
  else
    match zSortedPoints cfg.draw_z_seam_points_ with
    | [] => none
    | p :: ps =>
      let min_z := p.z_
      let max_z := ((p :: ps).getLast (List.cons_ne_nil p ps)).z_
      if cfg.current_layer_z_ < min_z then some (p.x_, p.y_)
      else if max_z < cfg.current_layer_z_ then
        if cfg.draw_z_seam_grow_ then none
        else some (((p :: ps).getLast (List.cons_ne_nil p ps)).x_,
          ((p :: ps).getLast (List.cons_ne_nil p ps)).y_)
      else interpSearch cfg.current_layer_z_ (p :: ps)

/-- In a z-sorted non-empty list every element's `z` is at most the last
element's `z`. -/
lemma sorted_le_getLast :
    ∀ (l : List Point3LL) (hl : l ≠ [])
      (hs : l.Pairwise (fun a b => a.z_ ≤ b.z_)) (q : Point3LL), q ∈ l →
      q.z_ ≤ (l.getLast hl).z_ := by
  intro l
  induction l with
  | nil => intro hl; exact absurd rfl hl
  | cons x tl ih =>
    intro hl hs q hq
    cases tl with
    | nil =>
      simp only [List.mem_singleton] at hq
      rw [hq]
      simp [List.getLast]
    | cons y tl' =>
      rw [List.getLast_cons (List.cons_ne_nil y tl')]
      rcases List.mem_cons.mp hq with hqx | hqtl
      · subst hqx
        exact List.rel_of_pairwise_cons hs (List.getLast_mem _)
      · exact ih (List.cons_ne_nil y tl') (List.pairwise_cons.mp hs).2 q hqtl

/-- The sorted seam-point list is sorted by `z`. -/
lemma zSortedPoints_pairwise (points : List Point3LL) :
    (zSortedPoints points).Pairwise (fun a b => a.z_ ≤ b.z_) := by
  have h := @List.sorted_mergeSort Point3LL
    (fun (a b : Point3LL) => decide (a.z_ ≤ b.z_))
    (fun a b c hab hbc => by
      simp only [decide_eq_true_eq] at *
      omega)
    (fun a b => by
      rcases le_total a.z_ b.z_ with h | h <;> simp [h])
    points
  exact h.imp (fun hab => of_decide_eq_true hab)

/-- The sorted seam-point list is a permutation of the original list. -/
lemma zSortedPoints_perm (points : List Point3LL) :
    (zSortedPoints points).Perm points :=
  List.mergeSort_perm points _

/-- If `interpSearch` succeeds, the result comes from the first consecutive
pair of the list that brackets `layer_z`. -/
lemma interpSearch_some (L : Int) :
    ∀ (l : List Point3LL) (v : Int × Int), interpSearch L l = some v →
      ∃ pre p1 p2 suf, l = pre ++ p1 :: p2 :: suf ∧
        (pre ++ [p1]).Chain' (fun q1 q2 => ¬ (q1.z_ ≤ L ∧ L ≤ q2.z_)) ∧
        p1.z_ ≤ L ∧ L ≤ p2.z_ ∧ v = seamInterpolate p1 p2 L := by
  intro l
  induction l with
  | nil => intro v hv; simp [interpSearch] at hv
  | cons x tl ih =>
    intro v hv
    rcases htl : tl with _ | ⟨y, tl'⟩
    · rw [htl] at hv
      simp [interpSearch] at hv
    · subst htl
      rw [interpSearch] at hv
      split_ifs at hv with hbr
      · refine ⟨[], x, y, tl', rfl, ?_, hbr.1, hbr.2, ?_⟩
        · exact List.chain'_singleton _
        · simpa using hv.symm
      · obtain ⟨pre, p1, p2, suf, hdec, hch, h1, h2, hval⟩ := ih v hv
        refine ⟨x :: pre, p1, p2, suf, by rw [List.cons_append, hdec], ?_, h1, h2, hval⟩
        rw [List.cons_append, List.chain'_cons']
        refine ⟨?_, hch⟩
        intro q hq
        have hqhead : q = y := by
          rcases pre with _ | ⟨z, zs⟩
          · simp only [List.nil_append, List.head?_cons, Option.mem_def,
              Option.some.injEq] at hq
            have : p1 = y := by
              have := congrArg List.head? hdec
              simpa using this.symm
            rw [← hq, this]
          · have : z = y := by
              have := congrArg List.head? hdec
              simpa using this.symm
            simp only [List.cons_append, List.head?_cons, Option.mem_def,
              Option.some.injEq] at hq
            rw [← hq, this]
        subst hqhead
        exact hbr

/-- On a z-sorted list whose head is at most `L` and whose last element is at
least `L`, `interpSearch` succeeds. -/
lemma interpSearch_isSome (L : Int) :
    ∀ (l : List Point3LL) (hl : l ≠ [])
      (hs : l.Pairwise (fun a b => a.z_ ≤ b.z_)),
      2 ≤ l.length →
      (∀ h : l ≠ [], (l.head h).z_ ≤ L ∧ L ≤ (l.getLast h).z_) →
      (interpSearch L l).isSome := by
  intro l
  induction l with
  | nil => intro hl; exact absurd rfl hl
  | cons x tl ih =>
    intro hl hs hlen hends
    rcases htl : tl with _ | ⟨y, tl'⟩
    · rw [htl] at hlen
      simp at hlen
    · subst htl
      obtain ⟨hhead, hlast⟩ := hends (List.cons_ne_nil _ _)
      rw [interpSearch]
      split_ifs with hbr
      · simp
      · have hylt : y.z_ < L := by
          push_neg at hbr
          exact hbr (by simpa using hhead)
        rcases htl' : tl' with _ | ⟨w, tl''⟩
        · exfalso
          subst htl'
          rw [List.getLast_cons (List.cons_ne_nil y []),
            List.getLast_singleton] at hlast
          omega
        · subst htl'
          apply ih (List.cons_ne_nil _ _) (List.pairwise_cons.mp hs).2 (by simp)
          intro h
          constructor
          · simpa using le_of_lt hylt
          · rw [← List.getLast_cons (h := List.cons_ne_nil y (w :: tl''))]
            exact hlast

/-- Evaluation of `getInterpolatedSeamPosition` on a single-point list. -/
lemma getInterpolatedSeamPosition_single (cfg : ZSeamConfig)
    (henable : cfg.draw_z_seam_enable_ = true) (p : Point3LL)
    (hp : cfg.draw_z_seam_points_ = [p]) :
    cfg.getInterpolatedSeamPosition = some (p.x_, p.y_) := by
  unfold ZSeamConfig.getInterpolatedSeamPosition
  rw [if_neg (by rw [henable, hp]; simp), hp]
  simp

/-- Evaluation of `getInterpolatedSeamPosition` once the sorted point list is
known to be non-empty and the list has at least two points. -/
lemma getInterpolatedSeamPosition_eq_of_sorted (cfg : ZSeamConfig)
    (henable : cfg.draw_z_seam_enable_ = true)
    (hne : cfg.draw_z_seam_points_ ≠ [])
    (hlen1 : cfg.draw_z_seam_points_.length ≠ 1)
    (p : Point3LL) (ps : List Point3LL)
    (heq : zSortedPoints cfg.draw_z_seam_points_ = p :: ps) :
    cfg.getInterpolatedSeamPosition =
      (if cfg.current_layer_z_ < p.z_ then some (p.x_, p.y_)
       else if ((p :: ps).getLast (List.cons_ne_nil p ps)).z_ < cfg.current_layer_z_ then
         (if cfg.draw_z_seam_grow_ then none
          else some (((p :: ps).getLast (List.cons_ne_nil p ps)).x_,
            ((p :: ps).getLast (List.cons_ne_nil p ps)).y_))
       else interpSearch cfg.current_layer_z_ (p :: ps)) := by
  unfold ZSeamConfig.getInterpolatedSeamPosition
  rw [if_neg (by rw [henable]; simp [hne]), if_neg hlen1, heq]

/-- Claim C8 (amended): `getInterpolatedSeamPosition` returns no position
exactly when the feature is disabled, the seam-point list is empty, or the
list has at least two points and `layer_z` lies strictly above every seam
point's `z` while `draw_z_seam_grow` is set.  A single-point list always
yields that point's `(x,y)` (even above its `z` with grow set).  With at least
two points: below the lowest `z` the lowest point's `(x,y)` is returned; above
the highest `z` with grow unset the highest point's `(x,y)`; otherwise the
linear interpolation by `z` at the first consecutive bracketing pair of the
z-sorted list. -/
theorem getInterpolatedSeamPosition_characterization (cfg : ZSeamConfig)
    (henable : cfg.draw_z_seam_enable_ = true)
    (hne : cfg.draw_z_seam_points_ ≠ []) :
    (cfg.draw_z_seam_points_.length = 1 →
      ∃ p, cfg.draw_z_seam_points_ = [p] ∧
        cfg.getInterpolatedSeamPosition = some (p.x_, p.y_)) ∧
    (2 ≤ cfg.draw_z_seam_points_.length →
      (cfg.getInterpolatedSeamPosition = none ↔
        (cfg.draw_z_seam_grow_ = true ∧
          ∀ p ∈ cfg.draw_z_seam_points_, p.z_ < cfg.current_layer_z_))) ∧
    (2 ≤ cfg.draw_z_seam_points_.length →
      (∀ p ∈ cfg.draw_z_seam_points_, cfg.current_layer_z_ < p.z_) →
      ∃ p, p ∈ cfg.draw_z_seam_points_ ∧
        (∀ q ∈ cfg.draw_z_seam_points_, p.z_ ≤ q.z_) ∧
        cfg.getInterpolatedSeamPosition = some (p.x_, p.y_)) ∧
    (2 ≤ cfg.draw_z_seam_points_.length →
      (∀ p ∈ cfg.draw_z_seam_points_, p.z_ < cfg.current_layer_z_) →
      cfg.draw_z_seam_grow_ = false →
      ∃ p, p ∈ cfg.draw_z_seam_points_ ∧
        (∀ q ∈ cfg.draw_z_seam_points_, q.z_ ≤ p.z_) ∧
        cfg.getInterpolatedSeamPosition = some (p.x_, p.y_)) ∧
    (2 ≤ cfg.draw_z_seam_points_.length →
      (∃ p ∈ cfg.draw_z_seam_points_, p.z_ ≤ cfg.current_layer_z_) →
      (∃ p ∈ cfg.draw_z_seam_points_, cfg.current_layer_z_ ≤ p.z_) →
      ∃ pre p1 p2 suf,
        zSortedPoints cfg.draw_z_seam_points_ = pre ++ p1 :: p2 :: suf ∧
        (pre ++ [p1]).Chain'
          (fun q1 q2 => ¬ (q1.z_ ≤ cfg.current_layer_z_ ∧ cfg.current_layer_z_ ≤ q2.z_)) ∧
        p1.z_ ≤ cfg.current_layer_z_ ∧ cfg.current_layer_z_ ≤ p2.z_ ∧
        cfg.getInterpolatedSeamPosition =
          some (seamInterpolate p1 p2 cfg.current_layer_z_)) := by
  have hperm := zSortedPoints_perm cfg.draw_z_seam_points_
  have hsorted := zSortedPoints_pairwise cfg.draw_z_seam_points_
  refine ⟨?_, ?_, ?_, ?_, ?_⟩
  · intro hlen1
    obtain ⟨p, hp⟩ := List.length_eq_one.mp hlen1
    exact ⟨p, hp, getInterpolatedSeamPosition_single cfg henable p hp⟩
  all_goals intro hlen2
  all_goals (have hlen1 : cfg.draw_z_seam_points_.length ≠ 1 := by omega)
  all_goals (have hslen : 2 ≤ (zSortedPoints cfg.draw_z_seam_points_).length := by rw [hperm.length_eq]; exact hlen2)
  all_goals (obtain ⟨p, ps, heq⟩ := List.exists_cons_of_ne_nil (l := zSortedPoints cfg.draw_z_seam_points_) (by intro h; rw [h] at hslen; simp at hslen))
  all_goals (have hres := getInterpolatedSeamPosition_eq_of_sorted cfg henable hne hlen1 p ps heq)
  all_goals (have hmemiff : ∀ q, q ∈ cfg.draw_z_seam_points_ ↔ q ∈ p :: ps := by intro q; rw [← heq]; exact (hperm.mem_iff).symm)
  all_goals (have hsort2 : (p :: ps).Pairwise (fun a b => a.z_ ≤ b.z_) := heq ▸ hsorted)
  all_goals (have hmin : ∀ q ∈ p :: ps, p.z_ ≤ q.z_ := fun q hq => (List.mem_cons.mp hq).elim (fun h => (congrArg Point3LL.z_ h).ge) (fun h => List.rel_of_pairwise_cons hsort2 h))
  all_goals (have hmax : ∀ q ∈ p :: ps, q.z_ ≤ ((p :: ps).getLast (List.cons_ne_nil p ps)).z_ := fun q hq => sorted_le_getLast (p :: ps) (List.cons_ne_nil p ps) hsort2 q hq)
  all_goals (have hlastmem : (p :: ps).getLast (List.cons_ne_nil p ps) ∈ p :: ps := List.getLast_mem _)
  · -- the "no seam" characterization
    constructor
    · intro hnone
      rw [hres] at hnone
      split_ifs at hnone with hlow hhigh hgrow
      · refine ⟨hgrow, ?_⟩
        intro q hq
        exact lt_of_le_of_lt (hmax q ((hmemiff q).mp hq)) hhigh
      · -- in-range: interpSearch succeeds, contradiction
        exfalso
        have hsome := interpSearch_isSome cfg.current_layer_z_ (p :: ps)
          (List.cons_ne_nil p ps) hsort2 (by rw [heq] at hslen; exact hslen)
          (fun h => ⟨by simpa using not_lt.mp hlow, not_lt.mp hhigh⟩)
        rw [hnone] at hsome
        simp at hsome
    · rintro ⟨hgrow, hbelow⟩
      rw [hres]
      have hplt : p.z_ < cfg.current_layer_z_ := hbelow p ((hmemiff p).mpr (List.mem_cons_self p ps))
      have hlastlt : ((p :: ps).getLast (List.cons_ne_nil p ps)).z_ < cfg.current_layer_z_ :=
        hbelow _ ((hmemiff _).mpr hlastmem)
      rw [if_neg (by omega), if_pos hlastlt, if_pos hgrow]
  · -- below the lowest point
    intro hallabove
    refine ⟨p, (hmemiff p).mpr (List.mem_cons_self p ps), ?_, ?_⟩
    · intro q hq
      exact hmin q ((hmemiff q).mp hq)
    · rw [hres, if_pos (hallabove p ((hmemiff p).mpr (List.mem_cons_self p ps)))]
  · -- above the highest point, grow unset
    intro hbelow hgrow
    refine ⟨(p :: ps).getLast (List.cons_ne_nil p ps), (hmemiff _).mpr hlastmem, ?_, ?_⟩
    · intro q hq
      exact hmax q ((hmemiff q).mp hq)
    · have hplt : p.z_ < cfg.current_layer_z_ :=
        hbelow p ((hmemiff p).mpr (List.mem_cons_self p ps))
      have hlastlt : ((p :: ps).getLast (List.cons_ne_nil p ps)).z_ < cfg.current_layer_z_ :=
        hbelow _ ((hmemiff _).mpr hlastmem)
      rw [hres, if_neg (by omega), if_pos hlastlt, if_neg (by simp [hgrow])]
  · -- in range: first bracketing pair of the sorted list
    rintro ⟨a, ha, haz⟩ ⟨b, hb, hbz⟩
    have hlow : ¬ (cfg.current_layer_z_ < p.z_) := by
      have := hmin a ((hmemiff a).mp ha)
      omega
    have hhigh : ¬ (((p :: ps).getLast (List.cons_ne_nil p ps)).z_ < cfg.current_layer_z_) := by
      have := hmax b ((hmemiff b).mp hb)
      omega
    have hres2 : cfg.getInterpolatedSeamPosition = interpSearch cfg.current_layer_z_ (p :: ps) := by
      rw [hres, if_neg hlow, if_neg hhigh]
    have hsome := interpSearch_isSome cfg.current_layer_z_ (p :: ps)
      (List.cons_ne_nil p ps) hsort2 (by rw [heq] at hslen; exact hslen)
      (fun h => ⟨by simpa using not_lt.mp hlow, not_lt.mp hhigh⟩)
    obtain ⟨v, hv⟩ := Option.isSome_iff_exists.mp hsome
    obtain ⟨pre, p1, p2, suf, hdec, hch, h1, h2, hval⟩ :=
      interpSearch_some cfg.current_layer_z_ (p :: ps) v hv
    refine ⟨pre, p1, p2, suf, by rw [heq, hdec], hch, h1, h2, ?_⟩
    rw [hres2, hv, hval]

/-- Witness for the amended C8: an enabled two-point configuration with
`layer_z` above both points and grow set returns no seam. -/
theorem getInterpolatedSeamPosition_characterization_witness :
    (⟨true, [⟨1, 2, 100⟩, ⟨5, 6, 300⟩], true, 400⟩ : ZSeamConfig).getInterpolatedSeamPosition
      = none :=
  ((getInterpolatedSeamPosition_characterization
      ⟨true, [⟨1, 2, 100⟩, ⟨5, 6, 300⟩], true, 400⟩ rfl (by simp)).2.1
    (by simp)).mpr ⟨rfl, by decide⟩

/-- The single-point configuration refuting C8 as stated: feature enabled,
grow set, `layer_z = 200` above the only point's `z = 100`. -/
def zSeamCexCfg : ZSeamConfig := ⟨true, [⟨10, 20, 100⟩], true, 200⟩

/-- Counterexample to claim C8 as stated: with one seam point, grow set and
`layer_z` above the highest (only) point's `z`, the claim demands "no
position", but the single-point early return yields the point's `(x,y)`. -/
theorem getInterpolatedSeamPosition_single_point_cex :
    zSeamCexCfg.draw_z_seam_enable_ = true ∧
    zSeamCexCfg.draw_z_seam_grow_ = true ∧
    (∀ p ∈ zSeamCexCfg.draw_z_seam_points_, p.z_ < zSeamCexCfg.current_layer_z_) ∧
    zSeamCexCfg.getInterpolatedSeamPosition = some (10, 20) := by
  refine ⟨rfl, rfl, by decide, by decide⟩

/-- `ExtrusionJunction`: a 2D point with a width and a perimeter index. -/
structure ExtrusionJunction where
  p_ : Int × Int
  w_ : Int
  perimeter_index_ : Nat
deriving DecidableEq, Repr

/-- `ExtrusionLine`: a polyline of junctions with its inset index and the
closed/odd flags. -/
structure ExtrusionLine where
  inset_idx_ : Nat
  is_odd_ : Bool
  is_closed_ : Bool
  junctions_ : List ExtrusionJunction
deriving DecidableEq, Repr

/-- A bucket of lines sharing one inset index. -/
abbrev VariableWidthLines := List ExtrusionLine

/-- `ExtrusionLine::toPolygon`: the junction points, widths dropped. -/
def ExtrusionLine.toPolygon (l : ExtrusionLine) : List (Int × Int) :=
  l.junctions_.map (·.p_)

/-- The `is_contour` detection loop of `WallToolPaths::separateOutInnerContour`
(`WallToolPaths.cpp`): for every line of the bucket, the flag is overwritten
with the width-zero test of that line's **first** junction (the inner loop
breaks after one junction; the outer loop does not break), so the final value
comes from the last line that has any junction. -/
def insetIsContour (inset : VariableWidthLines) : Bool :=
  inset.foldl
    (fun is_contour line =>
      match line.junctions_ with
      | [] => is_contour
      | j :: _ => j.w_ == 0)
    false

/-- One iteration of the bucket loop of `separateOutInnerContour`: empty
buckets are dropped, contour buckets contribute their closed non-odd lines as
polygons to the inner contour, all other buckets go to the output toolpaths. -/
def separateOutStep
    (acc : List VariableWidthLines × List (List (Int × Int)))
    (inset : VariableWidthLines) :
    List VariableWidthLines × List (List (Int × Int)) :=
  if inset.isEmpty then acc
  else if insetIsContour inset then
    (acc.1, acc.2 ++ ((inset.filter (fun l => !l.is_odd_ && l.is_closed_)).map ExtrusionLine.toPolygon))
  else (acc.1 ++ [inset], acc.2)

/-- `WallToolPaths::separateOutInnerContour`, with the geometric even-odd
union (`Shape::processEvenOdd`, outside the verified sources) abstracted as a
function argument.  Returns the filtered toolpaths and the normalized inner
contour. -/
def separateOutInnerContour
    (processEvenOdd : List (List (Int × Int)) → List (List (Int × Int)))
    (toolpaths : List VariableWidthLines) :
    List VariableWidthLines × List (List (Int × Int)) :=
  let r := toolpaths.foldl separateOutStep ([], [])
  (r.1, processEvenOdd r.2)

/-- The contour-bucket rule exactly as claim C5 words it: the first junction
of the bucket's first line has width 0. -/
def insetIsContourSpecFirst (inset : VariableWidthLines) : Bool :=
  match inset with
  | [] => false
  | l :: _ =>
    match l.junctions_ with
    | [] => false
    | j :: _ => j.w_ == 0

/-- The contour-bucket rule the code actually implements: the first junction
of the last line that has any junction has width 0 (false when no line has a
junction). -/
def insetIsContourSpecLast (inset : VariableWidthLines) : Bool :=
  match (inset.filter (fun l => !l.junctions_.isEmpty)).getLast? with
  | none => false
  | some l =>
    match l.junctions_ with
    | [] => false
    | j :: _ => j.w_ == 0

/-- Unfolding of the bucket fold into filters. -/
lemma separateOut_foldl (tps : List VariableWidthLines) :
    ∀ acc : List VariableWidthLines × List (List (Int × Int)),
      tps.foldl separateOutStep acc =
        (acc.1 ++ tps.filter (fun i => !i.isEmpty && !insetIsContour i),
          acc.2 ++ (tps.filter (fun i => !i.isEmpty && insetIsContour i)).flatMap
            (fun i => (i.filter (fun l => !l.is_odd_ && l.is_closed_)).map ExtrusionLine.toPolygon)) := by
  induction tps with
  | nil => intro acc; simp
  | cons i tl ih =>
    intro acc
    rw [List.foldl_cons]
    by_cases he : i.isEmpty
    · rw [ih]
      simp [separateOutStep, he, List.filter_cons]
    · by_cases hc : insetIsContour i
      · rw [ih]
        simp [separateOutStep, he, hc, List.filter_cons]
      · rw [ih]
        simp [separateOutStep, he, hc, List.filter_cons]

/-- The fold computing `is_contour` equals the last-line rule. -/
lemma insetIsContour_eq_specLast (inset : VariableWidthLines) :
    insetIsContour inset = insetIsContourSpecLast inset := by
  induction inset using List.reverseRecOn with
  | nil => rfl
  | append_singleton b l ih =>
    unfold insetIsContour at *
    rw [List.foldl_append]
    unfold insetIsContourSpecLast at *
    rcases hj : l.junctions_ with _ | ⟨j, js⟩
    · simp only [List.foldl_cons, List.foldl_nil, hj]
      rw [List.filter_append]
      simp [List.filter_cons, hj, ih]
    · simp only [List.foldl_cons, List.foldl_nil, hj]
      rw [List.filter_append]
      have : List.filter (fun l => !l.junctions_.isEmpty) [l] = [l] := by
        simp [List.filter_cons, hj]
      rw [this, List.getLast?_concat]
      simp [hj]

/-- Claim C5 (amended): `separateOutInnerContour` keeps exactly the non-empty
non-contour buckets, unchanged and in order, in the output toolpaths; contour
buckets contribute exactly their closed, non-odd lines (as plain polygons) to
the inner contour, which is normalized by the even-odd union; and a non-empty
bucket counts as a contour bucket exactly when the first junction of its
**last** line having any junction has width 0 (the detection loop overwrites
the flag for every line and does not break after the first). -/
theorem separateOutInnerContour_correct
    (processEvenOdd : List (List (Int × Int)) → List (List (Int × Int)))
    (toolpaths : List VariableWidthLines) :
    (separateOutInnerContour processEvenOdd toolpaths).1 =
      toolpaths.filter (fun i => !i.isEmpty && !insetIsContour i) ∧
    (separateOutInnerContour processEvenOdd toolpaths).2 =
      processEvenOdd ((toolpaths.filter (fun i => !i.isEmpty && insetIsContour i)).flatMap
        (fun i => (i.filter (fun l => !l.is_odd_ && l.is_closed_)).map ExtrusionLine.toPolygon)) ∧
    (∀ inset : VariableWidthLines, insetIsContour inset = insetIsContourSpecLast inset) := by
  unfold separateOutInnerContour
  rw [separateOut_foldl]
  exact ⟨by simp, by simp, insetIsContour_eq_specLast⟩

/-- A mixed bucket: its first line's first junction has width 0, its second
line's first junction has width 5. -/
def mixedBucketCex : VariableWidthLines :=
  [⟨0, false, true, [⟨(0, 0), 0, 0⟩]⟩, ⟨0, false, true, [⟨(40, 40), 5, 0⟩]⟩]

/-- Counterexample to claim C5 as stated: the mixed bucket is a contour bucket
by the claim's first-line rule, yet the code keeps it whole in the output
toolpaths and contributes nothing to the inner contour. -/
theorem separateOutInnerContour_first_line_cex :
    insetIsContourSpecFirst mixedBucketCex = true ∧
    (separateOutInnerContour id [mixedBucketCex]).1 = [mixedBucketCex] ∧
    (separateOutInnerContour id [mixedBucketCex]).2 = [] := by
  refine ⟨rfl, by decide, by decide⟩

/-- The guard of the outer loop of `SkeletalTrapezoidation::filterCentral`
(`SkeletalTrapezoidation.cpp`), verbatim from the source:
`isEndOfCentral(edge) && edge.to_->isLocalMaximum() && ! edge.to_->isLocalMaximum()`.
The two predicates are abstract parameters; the recursive inner filter is
likewise abstracted, since the guard never lets it run. -/
def filterCentralGuard {E : Type} (isEndOfCentral : E → Bool)
    (toIsLocalMaximum : E → Bool) (edge : E) : Bool :=
  isEndOfCentral edge && toIsLocalMaximum edge && !toIsLocalMaximum edge

/-- `SkeletalTrapezoidation::filterCentral(coord_t max_length)`: iterate over
all edges and, where the guard holds, run the recursive central filter
(abstracted as `inner`) on the graph state. -/
def filterCentralPass {E S : Type} (isEndOfCentral : E → Bool)
    (toIsLocalMaximum : E → Bool) (inner : S → E → S)
    (edges : List E) (st : S) : S :=
  edges.foldl
    (fun s edge =>
      if filterCentralGuard isEndOfCentral toIsLocalMaximum edge then inner s edge else s)
    st

/-- Claim C6 (the code is the bug): the guard
`isEndOfCentral(edge) && edge.to_->isLocalMaximum() && !edge.to_->isLocalMaximum()`
is identically false, so `filterCentral` never clears any `is_central` flag:
the pass leaves the graph state unchanged for every graph, every choice of the
two predicates and every behaviour of the recursive filter.  The specified
behaviour (clear `is_central` on central edges within `central_filter_dist` of
a non-maximum end of a central region) therefore never happens. -/
theorem filterCentral_is_noop {E S : Type} (isEndOfCentral : E → Bool)
    (toIsLocalMaximum : E → Bool) (inner : S → E → S)
    (edges : List E) (st : S) :
    filterCentralPass isEndOfCentral toIsLocalMaximum inner edges st = st := by
  unfold filterCentralPass
  induction edges with
  | nil => rfl
  | cons e tl ih =>
    rw [List.foldl_cons]
    have hguard : filterCentralGuard isEndOfCentral toIsLocalMaximum e = false := by
      unfold filterCentralGuard
      rcases h : toIsLocalMaximum e <;> simp [h]
    rw [hguard]
    simpa using ih

/-- `SkeletalTrapezoidationEdge::EdgeType`. -/
inductive EdgeType where
  | NORMAL : EdgeType
  | EXTRA_VD : EdgeType
  | TRANSITION_END : EdgeType
deriving DecidableEq, Repr

/-- A node of the skeletal-trapezoidation graph: its point and
`distance_to_boundary`. -/
structure STNode where
  p_ : Int × Int
  distance_to_boundary_ : Int
deriving DecidableEq, Repr

/-- A half-edge of the graph as `updateIsCentral` reads it: endpoints, type,
twin (an index into the edge list, `none` for a missing twin) and the
`is_central` flag before the pass (`none` = unset). -/
structure STEdgeRec where
  from_ : STNode
  to_ : STNode
  type_ : EdgeType
  twin_ : Option Nat
  is_central_ : Option Bool
deriving DecidableEq, Repr

/-- Componentwise difference of 2D points. -/
def pSub (a b : Int × Int) : Int × Int := (a.1 - b.1, a.2 - b.2)

/-- Squared Euclidean length. -/
def vSize2 (p : Int × Int) : Int := p.1 * p.1 + p.2 * p.2

/-- `vSize`: Euclidean length rounded down to `coord_t` (floor square root). -/
def vSize (p : Int × Int) : Int := Int.ofNat (Nat.sqrt (vSize2 p).toNat)

/-- The decision `updateIsCentral` makes for an edge whose twin's flag is not
yet set, in the source's branch order: `EXTRA_VD` edges are not central;
edges with both endpoints' `distance_to_boundary` below
`outer_edge_filter_length` are not central; otherwise the edge is central iff
`dR < dD * cap` with `dR = |r(to) − r(from)|`, `dD = vSize(to − from)` and
`cap = sin(transitioning_angle/2)` (passed in as an exact rational). -/
def updateIsCentralFresh (cap : ℚ) (outer_edge_filter_length : Int) (e : STEdgeRec) : Bool :=
  if e.type_ = EdgeType.EXTRA_VD then false
  else if max e.from_.distance_to_boundary_ e.to_.distance_to_boundary_ < outer_edge_filter_length then
    false
  else
    let dR := |e.to_.distance_to_boundary_ - e.from_.distance_to_boundary_|
    let dD := vSize (pSub e.to_.p_ e.from_.p_)
    decide ((dR : ℚ) < (dD : ℚ) * cap)

/-- The full per-edge decision of `updateIsCentral`, reading the running flag
state `st`: edges without a twin get `false`; an edge whose twin's flag is
already set copies it; otherwise the fresh cascade decides. -/
def uicDecide (cap : ℚ) (fl : Int) (edges : List STEdgeRec)
    (st : List (Option Bool)) (i : Nat) : Bool :=
  match edges[i]? with
  | none => false
  | some e =>
    match e.twin_ with
    | none => false
    | some j =>
      match st[j]? with
      | some (some b) => b
      | _ => updateIsCentralFresh cap fl e

/-- The flag state after the first `k` iterations of the edge loop of
`updateIsCentral`. -/
def uicStateAt (cap : ℚ) (fl : Int) (edges : List STEdgeRec) : Nat → List (Option Bool)
  | 0 => edges.map (fun e => e.is_central_)
  | k + 1 =>
    (uicStateAt cap fl edges k).set k
      (some (uicDecide cap fl edges (uicStateAt cap fl edges k) k))

/-- `SkeletalTrapezoidation::updateIsCentral`: the `is_central` flags after
one pass over all edges in order. -/
def updateIsCentral (cap : ℚ) (fl : Int) (edges : List STEdgeRec) : List (Option Bool) :=
  uicStateAt cap fl edges edges.length

lemma uicStateAt_length (cap : ℚ) (fl : Int) (edges : List STEdgeRec) (k : Nat) :
    (uicStateAt cap fl edges k).length = edges.length := by
  induction k with
  | zero => simp [uicStateAt]
  | succ k ih => simp [uicStateAt, List.length_set, ih]

lemma uicStateAt_get_ge (cap : ℚ) (fl : Int) (edges : List STEdgeRec)
    (k m : Nat) (h : k ≤ m) :
    (uicStateAt cap fl edges k)[m]? = (edges.map (fun e => e.is_central_))[m]? := by
  induction k with
  | zero => rfl
  | succ k ih =>
    rw [uicStateAt, List.getElem?_set_ne (by omega)]
    exact ih (by omega)

lemma uicStateAt_get_lt (cap : ℚ) (fl : Int) (edges : List STEdgeRec)
    (m : Nat) (hlen : m < edges.length) :
    ∀ k, m < k →
      (uicStateAt cap fl edges k)[m]? =
        some (some (uicDecide cap fl edges (uicStateAt cap fl edges m) m)) := by
  intro k
  induction k with
  | zero => omega
  | succ k ih =>
    intro hmk
    rcases Classical.em (m = k) with hmk' | hmk'
    · subst hmk'
      rw [uicStateAt, List.getElem?_set_self (by rw [uicStateAt_length]; exact hlen)]
    · rw [uicStateAt, List.getElem?_set_ne (by omega)]
      exact ih (by omega)

/-- Claim C2 (amended): in `updateIsCentral`, the first-processed edge of each
twin pair (all flags unset before the pass) is marked by the branch cascade —
not central if its type is `extra`, else not central if both endpoints lie
within `outer_edge_filter_length` of the boundary, else central iff
`dR < |AB| * cap` — and its twin then copies that value, so twin edges always
share centrality; an edge without a twin is never central.  (An `extra` edge
whose earlier-processed twin satisfies the formula thus **does** become
central by copying, which refutes the unconditional "extra edges are never
central" and the unconditional iff of the original claim.) -/
theorem updateIsCentral_characterization (cap : ℚ) (fl : Int)
    (edges : List STEdgeRec)
    (hfresh : ∀ e ∈ edges, e.is_central_ = none) :
    (∀ (i : Nat) (e : STEdgeRec), edges[i]? = some e → e.twin_ = none →
      (updateIsCentral cap fl edges)[i]? = some (some false)) ∧
    (∀ (i j : Nat) (ei ej : STEdgeRec), edges[i]? = some ei → edges[j]? = some ej →
      ei.twin_ = some j → ej.twin_ = some i → i < j →
      (updateIsCentral cap fl edges)[i]? = some (some (updateIsCentralFresh cap fl ei)) ∧
      (updateIsCentral cap fl edges)[j]? = some (some (updateIsCentralFresh cap fl ei))) := by
  constructor
  · intro i e hi htw
    have hilen : i < edges.length := by
      by_contra hc
      rw [List.getElem?_eq_none (by omega)] at hi
      exact Option.noConfusion hi
    rw [updateIsCentral, uicStateAt_get_lt cap fl edges i hilen edges.length hilen]
    unfold uicDecide
    rw [hi]
    dsimp only
    rw [htw]
  · intro i j ei ej hi hj hij hji hlt
    have hilen : i < edges.length := by
      by_contra hc
      rw [List.getElem?_eq_none (by omega)] at hi
      exact Option.noConfusion hi
    have hjlen : j < edges.length := by
      by_contra hc
      rw [List.getElem?_eq_none (by omega)] at hj
      exact Option.noConfusion hj
    have hvi : uicDecide cap fl edges (uicStateAt cap fl edges i) i =
        updateIsCentralFresh cap fl ei := by
      unfold uicDecide
      rw [hi]
      dsimp only
      rw [hij]
      dsimp only
      rw [uicStateAt_get_ge cap fl edges i j (by omega), List.getElem?_map, hj]
      have hejc : ej.is_central_ = none := hfresh ej (List.getElem?_mem hj)
      simp only [Option.map_some']
      rw [hejc]
    constructor
    · rw [updateIsCentral, uicStateAt_get_lt cap fl edges i hilen edges.length hilen, hvi]
    · rw [updateIsCentral, uicStateAt_get_lt cap fl edges j hjlen edges.length hjlen]
      unfold uicDecide
      rw [hj]
      dsimp only
      rw [hji]
      dsimp only
      rw [uicStateAt_get_lt cap fl edges i hilen j hlt, hvi]

/-- Witness for the amended C2 at a concrete two-edge graph: both members of
the twin pair receive the first-processed edge's cascade value. -/
theorem updateIsCentral_characterization_witness :
    (updateIsCentral (1/2) 0
        [⟨⟨(0, 0), 5⟩, ⟨(2, 0), 5⟩, EdgeType.NORMAL, some 1, none⟩,
          ⟨⟨(2, 0), 5⟩, ⟨(0, 0), 5⟩, EdgeType.NORMAL, some 0, none⟩])[0]? =
      some (some (updateIsCentralFresh (1/2) 0
        (⟨⟨(0, 0), 5⟩, ⟨(2, 0), 5⟩, EdgeType.NORMAL, some 1, none⟩ : STEdgeRec))) ∧
    (updateIsCentral (1/2) 0
        [⟨⟨(0, 0), 5⟩, ⟨(2, 0), 5⟩, EdgeType.NORMAL, some 1, none⟩,
          ⟨⟨(2, 0), 5⟩, ⟨(0, 0), 5⟩, EdgeType.NORMAL, some 0, none⟩])[1]? =
      some (some (updateIsCentralFresh (1/2) 0
        (⟨⟨(0, 0), 5⟩, ⟨(2, 0), 5⟩, EdgeType.NORMAL, some 1, none⟩ : STEdgeRec))) :=
  (updateIsCentral_characterization (1/2) 0
      [⟨⟨(0, 0), 5⟩, ⟨(2, 0), 5⟩, EdgeType.NORMAL, some 1, none⟩,
        ⟨⟨(2, 0), 5⟩, ⟨(0, 0), 5⟩, EdgeType.NORMAL, some 0, none⟩]
      (by decide)).2 0 1 _ _ rfl rfl rfl rfl (by decide)

/-- The two-edge graph refuting "extra edges are never central": a normal
edge of length 1 between two boundary-distance-0 nodes, twinned with an
`EXTRA_VD` edge. -/
def uicCexEdges : List STEdgeRec :=
  [⟨⟨(0, 0), 0⟩, ⟨(1, 0), 0⟩, EdgeType.NORMAL, some 1, none⟩,
    ⟨⟨(1, 0), 0⟩, ⟨(0, 0), 0⟩, EdgeType.EXTRA_VD, some 0, none⟩]

/-- Counterexample to claim C2 as stated: with `cap = 1/2` and
`outer_edge_filter_length = 0`, the normal edge is central by the formula
(`dR = 0 < 1 * 1/2`), and its `EXTRA_VD` twin copies that value — an edge of
type `extra` ends up central. -/
theorem updateIsCentral_extra_central_cex :
    (∃ e, uicCexEdges[1]? = some e ∧ e.type_ = EdgeType.EXTRA_VD) ∧
    (updateIsCentral (1/2) 0 uicCexEdges)[1]? = some (some true) := by
  constructor
  · exact ⟨_, rfl, rfl⟩
  · have hfresh : updateIsCentralFresh (1/2) 0
        (⟨⟨(0, 0), 0⟩, ⟨(1, 0), 0⟩, EdgeType.NORMAL, some 1, none⟩ : STEdgeRec) = true := by
      unfold updateIsCentralFresh
      rw [if_neg (by decide), if_neg (by decide)]
      rw [decide_eq_true_eq]
      norm_num [vSize, vSize2, pSub]
    have h0 : uicDecide (1/2) 0 uicCexEdges (uicStateAt (1/2) 0 uicCexEdges 0) 0 = true := by
      unfold uicDecide
      rw [show (uicCexEdges[0]? ) = some (⟨⟨(0, 0), 0⟩, ⟨(1, 0), 0⟩, EdgeType.NORMAL, some 1, none⟩ : STEdgeRec) from rfl]
      dsimp only
      rw [show (uicStateAt (1/2) 0 uicCexEdges 0)[1]? = some none from rfl]
      exact hfresh
    show (uicStateAt (1/2) 0 uicCexEdges 2)[1]? = some (some true)
    rw [uicStateAt, List.getElem?_set_self (by rw [uicStateAt_length]; decide)]
    unfold uicDecide
    rw [show (uicCexEdges[1]? ) = some (⟨⟨(1, 0), 0⟩, ⟨(0, 0), 0⟩, EdgeType.EXTRA_VD, some 0, none⟩ : STEdgeRec) from rfl]
    dsimp only
    rw [uicStateAt_get_lt (1/2) 0 uicCexEdges 0 (by decide) 1 (by decide), h0]

/-- A half-edge of the graph as `validateAndFixGraphIntegrity` manipulates
it: endpoint node ids, twin edge index, type and central flag.  Pointers are
modelled as indices into the edge list (`std::list` in the source has stable
addresses, so indices are faithful). -/
structure HEdge where
  from_ : Nat
  to_ : Nat
  twin_ : Option Nat
  type_ : EdgeType
  is_central_ : Option Bool
deriving DecidableEq, Repr

/-- The candidate search of `validateAndFixGraphIntegrity`: the first edge
(in list order) distinct from `ei` whose endpoints are the reverse of `e`'s
and whose twin is still unset. -/
def findTwinCandidate (edges : List HEdge) (ei : Nat) (e : HEdge) : Option Nat :=
  (List.range edges.length).find? (fun j =>
    match edges[j]? with
    | some c => decide (j ≠ ei) && (c.from_ == e.to_) && (c.to_ == e.from_) && c.twin_.isNone
    | none => false)

/-- One iteration of the repair loop of `validateAndFixGraphIntegrity` for a
recorded twinless edge `ei`: pair with a found candidate, or append a virtual
`EXTRA_VD` twin (marked not central) and point `ei` at it.  Note the source
does **not** re-check whether `ei` has acquired a twin since the list of
twinless edges was built. -/
def fixStep (st : List HEdge) (ei : Nat) : List HEdge :=
  match st[ei]? with
  | none => st
  | some e =>
    match findTwinCandidate st ei e with
    | some j =>
      let st1 := st.set ei { e with twin_ := some j }
      match st1[j]? with
      | some c => st1.set j { c with twin_ := some ei }
      | none => st1
    | none =>
      let st1 := st.set ei { e with twin_ := some st.length }
      st1 ++ [⟨e.to_, e.from_, some ei, EdgeType.EXTRA_VD, some false⟩]

/-- `SkeletalTrapezoidation::validateAndFixGraphIntegrity`
(`SkeletalTrapezoidation.cpp`): collect the twinless edges, then run the
repair loop over them in order. -/
def validateAndFixGraphIntegrity (edges : List HEdge) : List HEdge :=
  let twinless := (List.range edges.length).filter (fun i =>
    match edges[i]? with
    | some e => e.twin_.isNone
    | none => false)
  twinless.foldl fixStep edges

/-- The claimed post-condition of the pass: every edge has a twin,
`e.twin.twin == e` and `e.twin.from == e.to`. -/
def twinIntegrityHolds (edges : List HEdge) : Bool :=
  (List.range edges.length).all (fun i =>
    match edges[i]? with
    | some e =>
      match e.twin_ with
      | some j =>
        (match edges[j]? with
        | some c => c.twin_ == some i && c.from_ == e.to_
        | none => false)
      | none => false
    | none => true)

/-- The weaker fact that does hold on the failing input: every edge ends up
with some twin pointer. -/
def allTwinsPresent (edges : List HEdge) : Bool :=
  (List.range edges.length).all (fun i =>
    match edges[i]? with
    | some e => e.twin_.isSome
    | none => true)

/-- The two-edge graph on which the pass breaks its own invariant: twinless
edges `0 → 1` and `1 → 0`. -/
def vfgiCexEdges : List HEdge :=
  [⟨0, 1, none, EdgeType.NORMAL, none⟩, ⟨1, 0, none, EdgeType.NORMAL, none⟩]

/-- Claim C4 (the code is the bug): running the validation pass on the two
twinless edges `0 → 1` and `1 → 0` first pairs them, then — because the loop
never re-checks that the second recorded edge has meanwhile received a twin —
overwrites edge 1's twin with a freshly created virtual `EXTRA_VD` twin.  The
result leaves `edge0.twin = 1` but `edge1.twin = 2`, so `e.twin.twin == e`
fails even though every edge does end up with a (non-null) twin pointer. -/
theorem validateAndFixGraphIntegrity_breaks_twin_involution :
    validateAndFixGraphIntegrity vfgiCexEdges =
      [⟨0, 1, some 1, EdgeType.NORMAL, none⟩,
        ⟨1, 0, some 2, EdgeType.NORMAL, none⟩,
        ⟨0, 1, some 1, EdgeType.EXTRA_VD, some false⟩] ∧
    allTwinsPresent (validateAndFixGraphIntegrity vfgiCexEdges) = true ∧
    twinIntegrityHolds (validateAndFixGraphIntegrity vfgiCexEdges) = false := by
  refine ⟨by decide, by decide, by decide⟩

/-- A `TransitionMiddle`: position along the edge, the lower bead count of
the transition, and the feature radius at the transition. -/
structure TransitionMiddle where
  pos_ : Int
  lower_bead_count_ : Int
  feature_radius_ : Int
deriving DecidableEq, Repr

/-- The transition radius for lower bead count `k` in
`generateTransitionMids`: `transition_thickness(k) / 2`, clamped first to
`end_R` from above and then to `start_R` from below, exactly as the source
does it. -/
def clampMidR (tt : Int → Int) (start_R end_R : Int) (k : Int) : Int :=
  let mid_R0 := (tt k).tdiv 2
  let mid_R1 := if end_R < mid_R0 then end_R else mid_R0
  if mid_R1 < start_R then start_R else mid_R1

/-- The position along the edge for lower bead count `k`:
`edge_size * (mid_R - start_R) / (end_R - start_R)` with C++ integer
division. -/
def midPosOf (tt : Int → Int) (start_R end_R edge_size : Int) (k : Int) : Int :=
  (edge_size * (clampMidR tt start_R end_R k - start_R)).tdiv (end_R - start_R)

/-- One iteration of the per-bead-count loop of `generateTransitionMids`:
skip positions outside the edge; skip positions before the last transition
already placed; otherwise append the `TransitionMiddle`. -/
def transitionMidStep (tt : Int → Int) (start_R end_R edge_size : Int)
    (acc : List TransitionMiddle) (k : Int) : List TransitionMiddle :=
  let mid_R := clampMidR tt start_R end_R k
  let mid_pos := midPosOf tt start_R end_R edge_size k
  if ¬ (0 ≤ mid_pos ∧ mid_pos ≤ edge_size) then acc
  else
    match acc.getLast? with
    | some lastT => if mid_pos < lastT.pos_ then acc else acc ++ [⟨mid_pos, k, mid_R⟩]
    | none => acc ++ [⟨mid_pos, k, mid_R⟩]

/-- The first `n` iterations of the per-bead-count loop, starting from the
empty transition list. -/
def tmFoldAux (tt : Int → Int) (start_R end_R edge_size start_bead : Int)
    (n : Nat) : List TransitionMiddle :=
  (List.range n).foldl
    (fun acc (i : Nat) =>
      transitionMidStep tt start_R end_R edge_size acc (start_bead + (i : Int))) []

/-- The transition list `SkeletalTrapezoidation::generateTransitionMids`
produces on one central edge (`SkeletalTrapezoidation.cpp`): nothing unless
the boundary distance strictly increases from `start_R` to `end_R`, the
endpoint bead counts differ and the edge has positive length; otherwise one
loop iteration per integer lower bead count in `[start_bead, end_bead)`. -/
def generateTransitionMidsEdge (tt : Int → Int)
    (start_R end_R start_bead end_bead edge_size : Int) : List TransitionMiddle :=
  if start_R = end_R then []
  else if end_R < start_R then []
  else if start_bead = end_bead then []
  else if ¬ (0 < edge_size) then []
  else tmFoldAux tt start_R end_R edge_size start_bead (end_bead - start_bead).toNat

/-- The clamped transition radius lies in `[start_R, end_R]`. -/
lemma clampMidR_mem (tt : Int → Int) (start_R end_R k : Int) (h : start_R < end_R) :
    start_R ≤ clampMidR tt start_R end_R k ∧ clampMidR tt start_R end_R k ≤ end_R := by
  unfold clampMidR
  dsimp only
  split_ifs <;> omega

/-- After clamping, the computed position always lies inside the edge: the
out-of-range skip of the loop is dead code. -/
lemma midPosOf_range (tt : Int → Int) (start_R end_R edge_size k : Int)
    (h : start_R < end_R) (hes : 0 < edge_size) :
    0 ≤ midPosOf tt start_R end_R edge_size k ∧
      midPosOf tt start_R end_R edge_size k ≤ edge_size := by
  obtain ⟨hc1, hc2⟩ := clampMidR_mem tt start_R end_R k h
  unfold midPosOf
  have hnum : 0 ≤ edge_size * (clampMidR tt start_R end_R k - start_R) := by
    have : 0 ≤ clampMidR tt start_R end_R k - start_R := by omega
    positivity
  have hden : (0 : Int) < end_R - start_R := by omega
  rw [Int.tdiv_eq_ediv hnum (by omega)]
  constructor
  · exact Int.ediv_nonneg hnum (by omega)
  · have hle : edge_size * (clampMidR tt start_R end_R k - start_R) ≤
        edge_size * (end_R - start_R) := by
      apply mul_le_mul_of_nonneg_left (by omega) (by omega)
    calc edge_size * (clampMidR tt start_R end_R k - start_R) / (end_R - start_R)
        ≤ edge_size * (end_R - start_R) / (end_R - start_R) :=
          Int.ediv_le_ediv hden hle
      _ = edge_size := Int.mul_ediv_cancel _ (by omega)

/-- Invariants of the per-bead-count loop after `n` iterations: positions
non-decreasing, every element carries a bead count from the processed range
with the position and radius formulas, bead counts strictly increasing, and —
when the clamped positions are monotone over `[start_bead, end_bead)` — every
processed bead count is present. -/
lemma tmFoldAux_invariants (tt : Int → Int) (sR eR es sb eb : Int)
    (h1 : sR < eR) (h3 : 0 < es) :
    ∀ n : Nat, (n : Int) ≤ eb - sb →
      ((tmFoldAux tt sR eR es sb n).Chain' (fun a b => a.pos_ ≤ b.pos_)) ∧
      (∀ m ∈ tmFoldAux tt sR eR es sb n,
        sb ≤ m.lower_bead_count_ ∧ m.lower_bead_count_ < sb + (n : Int) ∧
        m.feature_radius_ = clampMidR tt sR eR m.lower_bead_count_ ∧
        m.pos_ = midPosOf tt sR eR es m.lower_bead_count_) ∧
      (((tmFoldAux tt sR eR es sb n).map (fun m => m.lower_bead_count_)).Chain' (· < ·)) ∧
      ((∀ k k', sb ≤ k → k ≤ k' → k' < eb →
          midPosOf tt sR eR es k ≤ midPosOf tt sR eR es k') →
        ∀ k, sb ≤ k → k < sb + (n : Int) →
          ∃ m ∈ tmFoldAux tt sR eR es sb n, m.lower_bead_count_ = k) := by
  intro n
  induction n with
  | zero =>
    intro
    refine ⟨List.chain'_nil, by simp [tmFoldAux], by simp [tmFoldAux], ?_⟩
    intro _ k hk1 hk2
    omega
  | succ n ih =>
    intro hn
    have hn' : (n : Int) ≤ eb - sb := by push_cast at hn ⊢; omega
    have hk0eb : sb + (n : Int) < eb := by push_cast at hn; omega
    obtain ⟨ih1, ih2, ih3, ih4⟩ := ih hn'
    have hstep : tmFoldAux tt sR eR es sb (n + 1) =
        transitionMidStep tt sR eR es (tmFoldAux tt sR eR es sb n) (sb + (n : Int)) := by
      unfold tmFoldAux
      rw [List.range_succ, List.foldl_append, List.foldl_cons, List.foldl_nil]
    set acc := tmFoldAux tt sR eR es sb n with hacc
    set k0 : Int := sb + (n : Int) with hk0
    have hrange := midPosOf_range tt sR eR es k0 h1 h3
    have hstep2 : transitionMidStep tt sR eR es acc k0 =
        (match acc.getLast? with
        | some lastT =>
          if midPosOf tt sR eR es k0 < lastT.pos_ then acc
          else acc ++ [⟨midPosOf tt sR eR es k0, k0, clampMidR tt sR eR k0⟩]
        | none => acc ++ [⟨midPosOf tt sR eR es k0, k0, clampMidR tt sR eR k0⟩]) := by
      unfold transitionMidStep
      dsimp only
      rw [if_neg (not_not_intro hrange)]
    rcases hl : acc.getLast? with _ | lastT
    · -- the accumulator is empty
      have haccnil : acc = [] := by
        rcases acc with _ | ⟨a, tl⟩
        · rfl
        · exfalso
          rw [List.getLast?_eq_getLast _ (List.cons_ne_nil a tl)] at hl
          exact Option.noConfusion hl
      have hres : tmFoldAux tt sR eR es sb (n + 1) =
          [⟨midPosOf tt sR eR es k0, k0, clampMidR tt sR eR k0⟩] := by
        rw [hstep, hstep2, hl, haccnil]
        rfl
      refine ⟨?_, ?_, ?_, ?_⟩
      · rw [hres]
        exact List.chain'_singleton _
      · intro m hm
        rw [hres, List.mem_singleton] at hm
        subst hm
        push_cast
        refine ⟨by omega, by omega, rfl, rfl⟩
      · rw [hres]
        exact List.chain'_singleton _
      · intro hmono k hk1 hk2
        push_cast at hk2
        rcases Classical.em (k = k0) with hke | hke
        · subst hke
          exact ⟨_, by rw [hres]; exact List.mem_singleton.mpr rfl, rfl⟩
        · obtain ⟨m, hm, -⟩ := ih4 hmono k hk1 (by rw [hk0] at hke; push_cast; omega)
          rw [haccnil] at hm
          exact absurd hm (List.not_mem_nil m)
    · -- the accumulator ends with lastT
      have hlmem : lastT ∈ acc := List.mem_of_mem_getLast? (by rw [hl]; rfl)
      obtain ⟨hl1, hl2, hl3, hl4⟩ := ih2 lastT hlmem
      rcases Classical.em (midPosOf tt sR eR es k0 < lastT.pos_) with hlt | hlt
      · -- misordered: the transition is skipped
        have hres : tmFoldAux tt sR eR es sb (n + 1) = acc := by
          rw [hstep, hstep2, hl]
          dsimp only
          rw [if_pos hlt]
        refine ⟨by rw [hres]; exact ih1, ?_, by rw [hres]; exact ih3, ?_⟩
        · intro m hm
          rw [hres] at hm
          obtain ⟨hm1, hm2, hm3, hm4⟩ := ih2 m hm
          exact ⟨hm1, by push_cast; omega, hm3, hm4⟩
        · intro hmono
          exfalso
          have := hmono lastT.lower_bead_count_ k0 hl1 (by omega) hk0eb
          rw [← hl4] at this
          omega
      · -- appended
        have hres : tmFoldAux tt sR eR es sb (n + 1) =
            acc ++ [⟨midPosOf tt sR eR es k0, k0, clampMidR tt sR eR k0⟩] := by
          rw [hstep, hstep2, hl]
          dsimp only
          rw [if_neg hlt]
        refine ⟨?_, ?_, ?_, ?_⟩
        · rw [hres, List.chain'_append]
          refine ⟨ih1, List.chain'_singleton _, ?_⟩
          intro x hx y hy
          simp only [List.head?_cons, Option.mem_def, Option.some.injEq] at hy
          rw [hl] at hx
          simp only [Option.mem_def, Option.some.injEq] at hx
          rw [← hx, ← hy]
          dsimp only
          omega
        · intro m hm
          rw [hres] at hm
          rcases List.mem_append.mp hm with hm | hm
          · obtain ⟨hm1, hm2, hm3, hm4⟩ := ih2 m hm
            exact ⟨hm1, by push_cast; omega, hm3, hm4⟩
          · rw [List.mem_singleton] at hm
            subst hm
            push_cast
            refine ⟨by omega, by omega, rfl, rfl⟩
        · rw [hres, List.map_append, List.chain'_append]
          refine ⟨ih3, List.chain'_singleton _, ?_⟩
          intro x hx y hy
          simp only [List.map_cons, List.map_nil, List.head?_cons, Option.mem_def,
            Option.some.injEq] at hy
          rw [List.getLast?_map, hl] at hx
          simp only [Option.map_some', Option.mem_def, Option.some.injEq] at hx
          rw [← hx, ← hy]
          omega
        · intro hmono k hk1 hk2
          push_cast at hk2
          rcases Classical.em (k = k0) with hke | hke
          · subst hke
            refine ⟨⟨midPosOf tt sR eR es k0, k0, clampMidR tt sR eR k0⟩, ?_, rfl⟩
            rw [hres]
            exact List.mem_append_right _ (List.mem_singleton.mpr rfl)
          · obtain ⟨m, hm, hmk⟩ := ih4 hmono k hk1 (by rw [hk0] at hke; push_cast; omega)
            exact ⟨m, by rw [hres]; exact List.mem_append_left _ hm, hmk⟩

/-- Claim C3: on a central edge with strictly increasing boundary distance,
differing endpoint bead counts and positive length, `generateTransitionMids`
produces transitions whose positions are monotonically non-decreasing along
the edge; every transition carries a `lower_bead_count` `k` from
`[from_bead_count, to_bead_count)`, the feature radius
`transition_thickness(k)/2` clamped into the edge's radius range, and the
position where the interpolated radius reaches that clamped value; bead
counts appear in strictly increasing order (so each `k` at most once); and
whenever the clamped positions are monotone in `k` — in particular whenever no
transition would violate the ordering — every `k` of the range is placed.  A
transition that would violate the order is skipped rather than inserted, and
the clamped position always lies inside the edge. -/
theorem generateTransitionMids_correct (tt : Int → Int) (sR eR sb eb es : Int)
    (h1 : sR < eR) (h2 : sb ≠ eb) (h3 : 0 < es) :
    ((generateTransitionMidsEdge tt sR eR sb eb es).Chain' (fun a b => a.pos_ ≤ b.pos_)) ∧
    (∀ m ∈ generateTransitionMidsEdge tt sR eR sb eb es,
      sb ≤ m.lower_bead_count_ ∧ m.lower_bead_count_ < eb ∧
      m.feature_radius_ = clampMidR tt sR eR m.lower_bead_count_ ∧
      m.pos_ = midPosOf tt sR eR es m.lower_bead_count_ ∧
      0 ≤ m.pos_ ∧ m.pos_ ≤ es) ∧
    (((generateTransitionMidsEdge tt sR eR sb eb es).map
        (fun m => m.lower_bead_count_)).Chain' (· < ·)) ∧
    ((∀ k k', sb ≤ k → k ≤ k' → k' < eb →
        midPosOf tt sR eR es k ≤ midPosOf tt sR eR es k') →
      ∀ k, sb ≤ k → k < eb →
        ∃ m ∈ generateTransitionMidsEdge tt sR eR sb eb es, m.lower_bead_count_ = k) := by
  have hgen : generateTransitionMidsEdge tt sR eR sb eb es =
      tmFoldAux tt sR eR es sb (eb - sb).toNat := by
    unfold generateTransitionMidsEdge
    rw [if_neg (by omega), if_neg (by omega), if_neg h2, if_neg (not_not_intro h3)]
  rcases lt_or_le sb eb with hsblt | hsble
  · -- increasing bead counts: the loop actually runs
    have hn : ((eb - sb).toNat : Int) ≤ eb - sb := by
      rw [Int.toNat_of_nonneg (by omega)]
    have htn : sb + (((eb - sb).toNat : Int)) = eb := by
      rw [Int.toNat_of_nonneg (by omega)]
      omega
    obtain ⟨i1, i2, i3, i4⟩ := tmFoldAux_invariants tt sR eR es sb eb h1 h3 (eb - sb).toNat hn
    refine ⟨by rw [hgen]; exact i1, ?_, by rw [hgen]; exact i3, ?_⟩
    · intro m hm
      rw [hgen] at hm
      obtain ⟨hm1, hm2, hm3, hm4⟩ := i2 m hm
      obtain ⟨hr1, hr2⟩ := midPosOf_range tt sR eR es m.lower_bead_count_ h1 h3
      exact ⟨hm1, by omega, hm3, hm4, by rw [hm4]; exact hr1, by rw [hm4]; exact hr2⟩
    · intro hmono k hk1 hk2
      obtain ⟨m, hm, hmk⟩ := i4 hmono k hk1 (by omega)
      exact ⟨m, by rw [hgen]; exact hm, hmk⟩
  · -- decreasing bead counts: the loop body never runs
    have hzero : (eb - sb).toNat = 0 := by
      rcases lt_or_eq_of_le hsble with h | h
      · exact Int.toNat_of_nonpos (by omega)
      · exact absurd h.symm h2
    have hnil : generateTransitionMidsEdge tt sR eR sb eb es = [] := by
      rw [hgen, hzero]
      rfl
    refine ⟨by rw [hnil]; exact List.chain'_nil, ?_, by rw [hnil]; exact List.chain'_nil, ?_⟩
    · intro m hm
      rw [hnil] at hm
      exact absurd hm (List.not_mem_nil m)
    · intro _ k hk1 hk2
      exfalso
      rcases lt_or_eq_of_le hsble with h | h
      · omega
      · exact h2 h.symm

/-- Witness for C3 at a concrete strategy (`transition_thickness(k) =
400k + 200`) and edge (`start_R = 100`, `end_R = 500`, bead counts 1 to 3,
length 1000). -/
theorem generateTransitionMids_correct_witness :
    ((generateTransitionMidsEdge (fun k => 400 * k + 200) 100 500 1 3 1000).Chain'
      (fun a b => a.pos_ ≤ b.pos_)) ∧
    (∀ m ∈ generateTransitionMidsEdge (fun k => 400 * k + 200) 100 500 1 3 1000,
      1 ≤ m.lower_bead_count_ ∧ m.lower_bead_count_ < 3 ∧
      m.feature_radius_ = clampMidR (fun k => 400 * k + 200) 100 500 m.lower_bead_count_ ∧
      m.pos_ = midPosOf (fun k => 400 * k + 200) 100 500 1000 m.lower_bead_count_ ∧
      0 ≤ m.pos_ ∧ m.pos_ ≤ 1000) ∧
    (((generateTransitionMidsEdge (fun k => 400 * k + 200) 100 500 1 3 1000).map
        (fun m => m.lower_bead_count_)).Chain' (· < ·)) ∧
    ((∀ k k', 1 ≤ k → k ≤ k' → k' < 3 →
        midPosOf (fun k => 400 * k + 200) 100 500 1000 k ≤
          midPosOf (fun k => 400 * k + 200) 100 500 1000 k') →
      ∀ k, 1 ≤ k → k < 3 →
        ∃ m ∈ generateTransitionMidsEdge (fun k => 400 * k + 200) 100 500 1 3 1000,
          m.lower_bead_count_ = k) :=
  generateTransitionMids_correct (fun k => 400 * k + 200) 100 500 1 3 1000
    (by norm_num) (by norm_num) (by norm_num)

end CuraSpec
